import Mathlib

/-!
Verification of the cache-detection microbenchmark (`cache_detect.c`).

The C code is shallowly embedded: `size_t`/`uint64_t` values become `ℕ`
(with explicit `% 2^64` where the C arithmetic can wrap), `double` values
become `ℚ`, arrays become `List`s, and `while` loops become structural
recursions on an explicit fuel argument whose sufficiency is established in
the proofs.  Every definition follows the corresponding C function.
-/

namespace CacheDetect

/-! ## PRNG (`rng_next`, `rng_uniform`, lines 58-75)

`rng_next` updates the 64-bit state by
`x ^= x >> 12; x ^= x << 25; x ^= x >> 27;` and returns
`x * 2685821657736338717` (the state keeps the pre-multiplication value).
-/

/-- First xorshift step `x ^= x >> 12` (no wrap possible). -/
def xs1 (x : ℕ) : ℕ := x ^^^ (x >>> 12)

/-- Second xorshift step `x ^= x << 25`; the C left shift is modulo `2^64`. -/
def xs2 (x : ℕ) : ℕ := x ^^^ ((x <<< 25) % 2 ^ 64)

/-- Third xorshift step `x ^= x >> 27`. -/
def xs3 (x : ℕ) : ℕ := x ^^^ (x >>> 27)

/-- The state update performed by `rng_next` (`r->state = x`). -/
def rng_next_state (x : ℕ) : ℕ := xs3 (xs2 (xs1 x))

/-- The value returned by `rng_next`: the new state times the odd constant,
modulo `2^64`. -/
def rng_next_out (x : ℕ) : ℕ := (rng_next_state x * 2685821657736338717) % 2 ^ 64

/-- The rejection threshold computed by `rng_uniform`:
`(~(uint64_t)0) % n`, i.e. `(2^64 - 1) % n`. -/
def rng_threshold (n : ℕ) : ℕ := (2 ^ 64 - 1) % n

/-- The threshold the specification prescribes: `(-n) mod 2^64`. -/
def spec_threshold (n : ℕ) : ℕ := (2 ^ 64 - n) % 2 ^ 64

/-- The rejection loop of `rng_uniform`, run on an explicit list of draws
(successive `rng_next` outputs): the first draw `x` with
`x >= threshold` is accepted and `x % n` returned. -/
def rng_uniform_draws (n : ℕ) : List ℕ → Option ℕ
  | [] => none
  | x :: xs => if rng_threshold n ≤ x then some (x % n) else rng_uniform_draws n xs

/-- The Driver's seed fixup (`main`, lines 549-551): a zero seed is replaced
by the nonzero constant `0x123456789abcdef`. -/
def seedFix (s : ℕ) : ℕ := if s = 0 then 0x123456789abcdef else s

/-- Number of accepted draws among all `2^64` possible `rng_next` outputs
that produce the residue `r`: the code accepts `x` with
`rng_threshold n ≤ x` and returns `x % n`. -/
def acceptCount (n r : ℕ) : ℕ :=
  ((Finset.range (2 ^ 64)).filter (fun x => rng_threshold n ≤ x ∧ x % n = r)).card

theorem rng_uniform_draws_lt {n : ℕ} (hn : 0 < n) {ds : List ℕ} {v : ℕ}
    (h : rng_uniform_draws n ds = some v) : v < n := by
  induction ds with
  | nil => simp [rng_uniform_draws] at h
  | cons x xs ih =>
    by_cases hx : rng_threshold n ≤ x
    · simp [rng_uniform_draws, hx] at h
      exact h ▸ Nat.mod_lt x hn
    · simp [rng_uniform_draws, hx] at h
      exact ih h

/-! ### Injectivity of the xorshift steps -/

theorem shiftRight_xor_distrib (x y s : ℕ) :
    (x ^^^ y) >>> s = (x >>> s) ^^^ (y >>> s) := by
  apply Nat.eq_of_testBit_eq
  intro i
  simp [Nat.testBit_shiftRight, Nat.testBit_xor]

theorem xor_eq_xor_iff (x y a b : ℕ) (h : x ^^^ a = y ^^^ b) : x ^^^ y = a ^^^ b := by
  have h1 : y = x ^^^ a ^^^ b := by
    rw [h, Nat.xor_assoc, Nat.xor_self, Nat.xor_zero]
  rw [h1, ← Nat.xor_assoc, ← Nat.xor_assoc, Nat.xor_self, Nat.zero_xor]

theorem xorShiftRight_inj {s : ℕ} (hs : 1 ≤ s) {x y : ℕ}
    (h : x ^^^ (x >>> s) = y ^^^ (y >>> s)) : x = y := by
  have h2 : x ^^^ y = (x ^^^ y) >>> s := by
    rw [shiftRight_xor_distrib]
    exact xor_eq_xor_iff x y (x >>> s) (y >>> s) h
  by_contra hne
  have hz : x ^^^ y ≠ 0 := fun h0 => hne (Nat.xor_eq_zero.mp h0)
  have hlt : (x ^^^ y) >>> s < x ^^^ y := by
    rw [Nat.shiftRight_eq_div_pow]
    apply Nat.div_lt_self (Nat.pos_of_ne_zero hz)
    exact Nat.one_lt_two_pow_iff.mpr (by omega)
  omega

theorem shiftLeft_mod_xor_distrib (x y s w : ℕ) :
    ((x ^^^ y) <<< s) % 2 ^ w = ((x <<< s) % 2 ^ w) ^^^ ((y <<< s) % 2 ^ w) := by
  apply Nat.eq_of_testBit_eq
  intro i
  simp [Nat.testBit_mod_two_pow, Nat.testBit_shiftLeft, Nat.testBit_xor]
  by_cases h1 : i < w <;> by_cases h2 : s ≤ i <;> simp [h1, h2]

theorem eq_shiftLeft_mod_self_eq_zero {z : ℕ} (h : z = (z <<< 25) % 2 ^ 64) : z = 0 := by
  have hbit : ∀ i, z.testBit i = false := by
    intro i
    induction i using Nat.strong_induction_on with
    | _ i ih =>
      by_contra htrue
      have h1 : z.testBit i = true := by
        cases hb : z.testBit i
        · exact absurd hb htrue
        · rfl
      have h2 : ((z <<< 25) % 2 ^ 64).testBit i = true := by rw [← h]; exact h1
      rw [Nat.testBit_mod_two_pow, Nat.testBit_shiftLeft] at h2
      simp only [Bool.and_eq_true, decide_eq_true_eq] at h2
      obtain ⟨hi64, hge, hbit'⟩ := h2
      have : z.testBit (i - 25) = false := ih (i - 25) (by omega)
      rw [this] at hbit'
      exact Bool.false_ne_true hbit'
  exact Nat.eq_of_testBit_eq (fun i => by rw [hbit i, Nat.zero_testBit])

theorem xs2_inj {x y : ℕ} (h : xs2 x = xs2 y) : x = y := by
  unfold xs2 at h
  have h2 : x ^^^ y = ((x ^^^ y) <<< 25) % 2 ^ 64 := by
    rw [shiftLeft_mod_xor_distrib]
    exact xor_eq_xor_iff x y _ _ h
  have := eq_shiftLeft_mod_self_eq_zero h2
  exact Nat.xor_eq_zero.mp this

theorem xs1_inj {x y : ℕ} (h : xs1 x = xs1 y) : x = y :=
  xorShiftRight_inj (by omega) h

theorem xs3_inj {x y : ℕ} (h : xs3 x = xs3 y) : x = y :=
  xorShiftRight_inj (by omega) h

theorem rng_next_state_inj {x y : ℕ} (h : rng_next_state x = rng_next_state y) :
    x = y :=
  xs1_inj (xs2_inj (xs3_inj h))

theorem xs1_zero : xs1 0 = 0 := rfl
theorem xs2_zero : xs2 0 = 0 := rfl
theorem xs3_zero : xs3 0 = 0 := rfl

theorem rng_next_state_zero : rng_next_state 0 = 0 := rfl

theorem rng_next_state_ne_zero {x : ℕ} (hx : x ≠ 0) : rng_next_state x ≠ 0 := by
  intro h
  exact hx (rng_next_state_inj (h.trans rng_next_state_zero.symm))

theorem xs1_lt {x : ℕ} (hx : x < 2 ^ 64) : xs1 x < 2 ^ 64 := by
  unfold xs1
  apply Nat.xor_lt_two_pow hx
  rw [Nat.shiftRight_eq_div_pow]
  exact lt_of_le_of_lt (Nat.div_le_self _ _) hx

theorem xs2_lt {x : ℕ} (hx : x < 2 ^ 64) : xs2 x < 2 ^ 64 := by
  unfold xs2
  exact Nat.xor_lt_two_pow hx (Nat.mod_lt _ (by positivity))

theorem xs3_lt {x : ℕ} (hx : x < 2 ^ 64) : xs3 x < 2 ^ 64 := by
  unfold xs3
  apply Nat.xor_lt_two_pow hx
  rw [Nat.shiftRight_eq_div_pow]
  exact lt_of_le_of_lt (Nat.div_le_self _ _) hx

theorem rng_next_state_lt {x : ℕ} (hx : x < 2 ^ 64) : rng_next_state x < 2 ^ 64 :=
  xs3_lt (xs2_lt (xs1_lt hx))

theorem seedFix_ne_zero (s : ℕ) : seedFix s ≠ 0 := by
  unfold seedFix
  split
  · decide
  · assumption

theorem seedFix_lt {s : ℕ} (hs : s < 2 ^ 64) : seedFix s < 2 ^ 64 := by
  unfold seedFix
  split
  · decide
  · exact hs

theorem rng_state_iterate_ne_zero (s : ℕ) (hs : s < 2 ^ 64) (m : ℕ) :
    rng_next_state^[m] (seedFix s) ≠ 0 ∧ rng_next_state^[m] (seedFix s) < 2 ^ 64 := by
  induction m with
  | zero => exact ⟨seedFix_ne_zero s, seedFix_lt hs⟩
  | succ m ih =>
    rw [Function.iterate_succ_apply']
    exact ⟨rng_next_state_ne_zero ih.1, rng_next_state_lt ih.2⟩

/-! ### Residue counting for the bias analysis of `rng_uniform` -/

theorem card_filter_odd (N : ℕ) :
    ((Finset.range N).filter (fun x => x % 2 = 1)).card = N / 2 := by
  induction N with
  | zero => simp
  | succ N ih =>
    rw [Finset.range_succ, Finset.filter_insert]
    by_cases h : N % 2 = 1
    · rw [if_pos h, Finset.card_insert_of_not_mem (by simp), ih]
      omega
    · rw [if_neg h, ih]
      omega

theorem card_filter_even (N : ℕ) :
    ((Finset.range N).filter (fun x => x % 2 = 0)).card = (N + 1) / 2 := by
  induction N with
  | zero => simp
  | succ N ih =>
    rw [Finset.range_succ, Finset.filter_insert]
    by_cases h : N % 2 = 0
    · rw [if_pos h, Finset.card_insert_of_not_mem (by simp), ih]
      omega
    · rw [if_neg h, ih]
      omega

theorem acceptCount_two_one : acceptCount 2 1 = 2 ^ 63 := by
  unfold acceptCount
  have hth : rng_threshold 2 = 1 := by decide
  have : ((Finset.range (2 ^ 64)).filter (fun x => rng_threshold 2 ≤ x ∧ x % 2 = 1)) =
      ((Finset.range (2 ^ 64)).filter (fun x => x % 2 = 1)) := by
    apply Finset.filter_congr
    intro x _
    rw [hth]
    constructor
    · exact fun h => h.2
    · exact fun h => ⟨by omega, h⟩
  rw [this, card_filter_odd]
  norm_num

theorem acceptCount_two_zero : acceptCount 2 0 = 2 ^ 63 - 1 := by
  unfold acceptCount
  have hth : rng_threshold 2 = 1 := by decide
  have hset : ((Finset.range (2 ^ 64)).filter (fun x => rng_threshold 2 ≤ x ∧ x % 2 = 0)) =
      ((Finset.range (2 ^ 64)).filter (fun x => x % 2 = 0)).erase 0 := by
    ext a
    rw [Finset.mem_erase]
    simp only [Finset.mem_filter, Finset.mem_range, hth]
    omega
  have hmem : (0 : ℕ) ∈ ((Finset.range (2 ^ 64)).filter (fun x => x % 2 = 0)) := by
    simp only [Finset.mem_filter, Finset.mem_range]
    refine ⟨by positivity, by norm_num⟩
  rw [hset, Finset.card_erase_of_mem hmem, card_filter_even]
  norm_num

/-- C2: the claim states that `uniform(n)` is unbiased rejection sampling with
threshold `(-n) mod 2^64`, rejecting draws below the threshold.  The code
instead computes the threshold `(2^64 - 1) % n`.  At `n = 2` the code's
threshold is `1` while the claimed threshold is `2^64 - 2`, and over the full
draw space the accepted draws yield residue `1` exactly `2^63` times but
residue `0` only `2^63 - 1` times, so the sampling is biased, contradicting
both the claim and the code's own comment `unbiased range [0, n)`. -/
theorem rng_uniform_bias_code_bug :
    rng_threshold 2 = 1 ∧
    spec_threshold 2 = 2 ^ 64 - 2 ∧
    rng_threshold 2 ≠ spec_threshold 2 ∧
    acceptCount 2 1 = 2 ^ 63 ∧
    acceptCount 2 0 = 2 ^ 63 - 1 ∧
    acceptCount 2 0 ≠ acceptCount 2 1 := by
  refine ⟨by decide, by decide, by decide, acceptCount_two_one, acceptCount_two_zero, ?_⟩
  rw [acceptCount_two_one, acceptCount_two_zero]
  norm_num

/-- C10: the xorshift state update of `rng_next` is injective (hence a
bijection of the 64-bit state space) and fixes `0`, so every nonzero state
maps to a nonzero state; the Driver replaces a zero seed with a nonzero
constant, and therefore the state is nonzero before and after every PRNG
call (every iterate of the update on the fixed-up seed is nonzero and stays
a 64-bit value). -/
theorem rng_state_nonzero_invariant (s x m : ℕ) (hs : s < 2 ^ 64)
    (hx : x < 2 ^ 64) (hx0 : x ≠ 0) :
    Function.Injective rng_next_state ∧
    rng_next_state 0 = 0 ∧
    rng_next_state x ≠ 0 ∧
    rng_next_state x < 2 ^ 64 ∧
    seedFix s ≠ 0 ∧
    rng_next_state^[m] (seedFix s) ≠ 0 ∧
    rng_next_state^[m] (seedFix s) < 2 ^ 64 :=
  ⟨fun _ _ h => rng_next_state_inj h, rng_next_state_zero,
    rng_next_state_ne_zero hx0, rng_next_state_lt hx, seedFix_ne_zero s,
    (rng_state_iterate_ne_zero s hs m).1, (rng_state_iterate_ne_zero s hs m).2⟩

/-- C10 witness: the invariant theorem applied at seed `0`, state `1`, and
three PRNG calls. -/
theorem rng_state_nonzero_invariant_witness :
    (0 : ℕ) < 2 ^ 64 ∧ (1 : ℕ) < 2 ^ 64 ∧ (1 : ℕ) ≠ 0 ∧
    (Function.Injective rng_next_state ∧
      rng_next_state 0 = 0 ∧
      rng_next_state 1 ≠ 0 ∧
      rng_next_state 1 < 2 ^ 64 ∧
      seedFix 0 ≠ 0 ∧
      rng_next_state^[3] (seedFix 0) ≠ 0 ∧
      rng_next_state^[3] (seedFix 0) < 2 ^ 64) :=
  ⟨by norm_num, by norm_num, by decide,
    rng_state_nonzero_invariant 0 1 3 (by norm_num) (by norm_num) (by decide)⟩

/-! ## OrderBuilder (lines 122-224)

Each `build_order_*` function fills the caller's array with node indices;
here each one returns the corresponding `List ℕ`.
-/

/-- Swap of two positions of a list, as in
`tmp = order[i]; order[i] = order[j]; order[j] = tmp;` (both reads happen
before the writes). -/
def listSwap (l : List ℕ) (i j : ℕ) : List ℕ :=
  (l.set i (l.getD j 0)).set j (l.getD i 0)

theorem getD_cons_succ (a : ℕ) (t : List ℕ) (k : ℕ) :
    (a :: t).getD (k + 1) 0 = t.getD k 0 := rfl

theorem cons_set_perm (t : List ℕ) (m a : ℕ) (hm : m < t.length) :
    (t.getD m 0 :: t.set m a).Perm (a :: t) := by
  induction t generalizing m with
  | nil => simp at hm
  | cons b t' ih =>
    cases m with
    | zero =>
      simp only [List.getD_cons_zero, List.set_cons_zero]
      exact List.Perm.swap a b t'
    | succ k =>
      have hk : k < t'.length := by simpa using hm
      have he : (b :: t').getD (k + 1) 0 :: (b :: t').set (k + 1) a
          = t'.getD k 0 :: b :: t'.set k a := by simp [getD_cons_succ]
      rw [he]
      have p1 : (t'.getD k 0 :: b :: t'.set k a).Perm
          (b :: t'.getD k 0 :: t'.set k a) := List.Perm.swap _ _ _
      have p2 : (b :: t'.getD k 0 :: t'.set k a).Perm (b :: a :: t') :=
        (ih k hk).cons b
      have p3 : (b :: a :: t').Perm (a :: b :: t') := List.Perm.swap _ _ _
      exact (p1.trans p2).trans p3

theorem set_getD_self (l : List ℕ) (i : ℕ) (hi : i < l.length) :
    l.set i (l.getD i 0) = l := by
  apply List.ext_getElem?
  intro k
  by_cases hk : k = i
  · subst hk
    rw [List.getElem?_set_self hi, List.getD_eq_getElem?_getD,
      List.getElem?_eq_getElem hi]
    rfl
  · exact List.getElem?_set_ne (fun h => hk h.symm)

theorem listSwap_perm (l : List ℕ) (i j : ℕ) (hi : i < l.length)
    (hj : j < l.length) : (listSwap l i j).Perm l := by
  induction l generalizing i j with
  | nil => simp at hi
  | cons a t ih =>
    cases i with
    | zero =>
      cases j with
      | zero =>
        unfold listSwap
        rw [List.set_set, List.set_cons_zero]
        simp
      | succ k =>
        have hk : k < t.length := by simpa using hj
        unfold listSwap
        simp only [List.getD_cons_zero, List.set_cons_zero, getD_cons_succ,
          List.set_cons_succ]
        exact cons_set_perm t k a hk
    | succ m =>
      have hm : m < t.length := by simpa using hi
      cases j with
      | zero =>
        unfold listSwap
        simp only [List.getD_cons_zero, getD_cons_succ, List.set_cons_succ,
          List.set_cons_zero]
        exact cons_set_perm t m a hm
      | succ k =>
        have hk : k < t.length := by simpa using hj
        unfold listSwap
        simp only [getD_cons_succ, List.set_cons_succ]
        exact (ih m k hm hk).cons a

/-- The Fisher-Yates loop of `build_order_random`
(`for i = n-1 downto 1: j = rng_uniform(i+1); swap(order[i], order[j])`).
`J i` stands for the value `rng_uniform` returned at index `i`; the
rejection loop guarantees `J i < i + 1` (see `rng_uniform_draws_lt`). -/
def fyLoop (J : ℕ → ℕ) : ℕ → List ℕ → List ℕ
  | 0, l => l
  | m + 1, l => fyLoop J m (listSwap l (m + 1) (J (m + 1)))

/-- Orderings from `build_order_random`: Fisher-Yates shuffle of the
identity permutation. -/
def build_order_random (J : ℕ → ℕ) (n : ℕ) : List ℕ :=
  fyLoop J (n - 1) (List.range n)

/-- Orderings from `build_order_sequential`: the identity. -/
def build_order_sequential (n : ℕ) : List ℕ := List.range n

/-- Orderings from `build_order_reverse`: `order[i] = num_nodes - 1 - i`. -/
def build_order_reverse (n : ℕ) : List ℕ :=
  (List.range n).map (fun i => n - 1 - i)

/-- Orderings from `build_order_interleave`: for `i < half = n/2` emit
`i, i + half`; when `n` is odd (`num_nodes & 1`) append `n - 1`. -/
def build_order_interleave (n : ℕ) : List ℕ :=
  ((List.range (n / 2)).flatMap (fun i => [i, i + n / 2])) ++
    (if n &&& 1 ≠ 0 then [n - 1] else [])

theorem fyLoop_perm (J : ℕ → ℕ) (hJ : ∀ i, J i ≤ i) :
    ∀ (m : ℕ) (l : List ℕ), m < l.length → (fyLoop J m l).Perm l := by
  intro m
  induction m with
  | zero => exact fun l _ => List.Perm.refl l
  | succ m ih =>
    intro l hm
    have h1 : (listSwap l (m + 1) (J (m + 1))).Perm l :=
      listSwap_perm l (m + 1) (J (m + 1)) hm (lt_of_le_of_lt (hJ (m + 1)) hm)
    have hlen : (listSwap l (m + 1) (J (m + 1))).length = l.length := by
      unfold listSwap
      simp
    exact (ih _ (by omega)).trans h1

theorem build_order_random_perm (J : ℕ → ℕ) (n : ℕ) (hn : 1 ≤ n)
    (hJ : ∀ i, J i ≤ i) : (build_order_random J n).Perm (List.range n) := by
  apply fyLoop_perm J hJ
  simp only [List.length_range]
  omega

theorem build_order_sequential_perm (n : ℕ) :
    (build_order_sequential n).Perm (List.range n) := List.Perm.refl _

theorem build_order_reverse_perm (n : ℕ) :
    (build_order_reverse n).Perm (List.range n) := by
  have hnd : (build_order_reverse n).Nodup := by
    apply List.Nodup.map_on
    · intro x hx y hy h
      rw [List.mem_range] at hx hy
      omega
    · exact List.nodup_range n
  rw [List.perm_ext_iff_of_nodup hnd (List.nodup_range n)]
  intro a
  simp only [build_order_reverse, List.mem_map, List.mem_range]
  constructor
  · rintro ⟨i, hi, rfl⟩
    omega
  · intro ha
    exact ⟨n - 1 - a, by omega, by omega⟩

theorem interleave_core (h : ℕ) :
    ∀ m : ℕ, m ≤ h →
      ((List.range m).flatMap (fun i => [i, i + h])).Nodup ∧
      (∀ x, x ∈ (List.range m).flatMap (fun i => [i, i + h]) ↔
        (x < m ∨ (h ≤ x ∧ x < m + h))) := by
  intro m
  induction m with
  | zero => simp
  | succ m ih =>
    intro hm
    obtain ⟨ihn, ihm⟩ := ih (by omega)
    rw [List.range_succ, List.flatMap_append]
    constructor
    · rw [List.nodup_append]
      refine ⟨ihn, by simp; omega, ?_⟩
      intro x hx hx'
      rw [ihm] at hx
      simp at hx'
      omega
    · intro x
      rw [List.mem_append, ihm]
      simp only [List.flatMap_cons, List.flatMap_nil, List.append_nil,
        List.mem_cons, List.mem_singleton, List.not_mem_nil, or_false]
      omega

theorem build_order_interleave_perm (n : ℕ) :
    (build_order_interleave n).Perm (List.range n) := by
  obtain ⟨hnd, hm⟩ := interleave_core (n / 2) (n / 2) le_rfl
  have hodd : n &&& 1 = n % 2 := Nat.and_one_is_mod n
  have hnd' : (build_order_interleave n).Nodup := by
    unfold build_order_interleave
    rw [List.nodup_append]
    refine ⟨hnd, ?_, ?_⟩
    · split <;> simp
    · intro x hx hx'
      rw [hm] at hx
      rw [hodd] at hx'
      by_cases hp : n % 2 = 1
      · simp [hp] at hx'
        omega
      · simp [hp] at hx'
  rw [List.perm_ext_iff_of_nodup hnd' (List.nodup_range n)]
  intro a
  unfold build_order_interleave
  rw [List.mem_append, hm, hodd, List.mem_range]
  by_cases hp : n % 2 = 1
  · simp [hp]
    omega
  · simp [hp]
    omega

/-- The loop `m = 1; while ((m << 1) > m && (m << 1) <= bound) m <<= 1;`
computing the largest power of two that is at most `bound` (the first
conjunct is the C overflow guard on `size_t`, modelled by the `% 2^64`). -/
def pow2grow (bound : ℕ) : ℕ → ℕ → ℕ
  | 0, m => m
  | f + 1, m =>
    if (2 * m) % 2 ^ 64 > m ∧ (2 * m) % 2 ^ 64 ≤ bound then
      pow2grow bound f ((2 * m) % 2 ^ 64)
    else m

theorem pow2grow_spec (bound : ℕ) (hb : bound < 2 ^ 64) :
    ∀ (f t m : ℕ), m = 2 ^ t → 64 ≤ f + t → m ≤ bound →
      ∃ b, pow2grow bound f m = 2 ^ b ∧ 2 ^ b ≤ bound ∧ bound < 2 ^ (b + 1) := by
  intro f
  induction f with
  | zero =>
    intro t m hm hf hmb
    exfalso
    have h1 : (2 : ℕ) ^ 64 ≤ 2 ^ t := Nat.pow_le_pow_right (by norm_num) (by omega)
    omega
  | succ f ih =>
    intro t m hm hf hmb
    have ht : t ≤ 63 := by
      by_contra hgt
      have h1 : (2 : ℕ) ^ 64 ≤ 2 ^ t := Nat.pow_le_pow_right (by norm_num) (by omega)
      omega
    by_cases hc : (2 * m) % 2 ^ 64 > m ∧ (2 * m) % 2 ^ 64 ≤ bound
    · rw [pow2grow, if_pos hc]
      by_cases ht63 : t = 63
      · exfalso
        have h2m : 2 * m = 2 ^ 64 := by
          rw [hm, ht63]
          norm_num
        rw [h2m, Nat.mod_self] at hc
        omega
      · have h2m : 2 * m = 2 ^ (t + 1) := by
          rw [hm]
          ring
        have hlt : 2 * m < 2 ^ 64 := by
          rw [h2m]
          exact Nat.pow_lt_pow_right (by norm_num) (by omega)
        have hmod : (2 * m) % 2 ^ 64 = 2 * m := Nat.mod_eq_of_lt hlt
        rw [hmod]
        exact ih (t + 1) (2 * m) h2m (by omega) (by rw [← hmod]; exact hc.2)
    · rw [pow2grow, if_neg hc]
      refine ⟨t, hm, hm ▸ hmb, ?_⟩
      by_cases ht63 : t = 63
      · have : (2 : ℕ) ^ (t + 1) = 2 ^ 64 := by rw [ht63]
        omega
      · have h2m : 2 * m = 2 ^ (t + 1) := by
          rw [hm]
          ring
        have hlt : 2 * m < 2 ^ 64 := by
          rw [h2m]
          exact Nat.pow_lt_pow_right (by norm_num) (by omega)
        have hmod : (2 * m) % 2 ^ 64 = 2 * m := Nat.mod_eq_of_lt hlt
        rw [hmod] at hc
        push_neg at hc
        have hm1 : 1 ≤ m := by
          rw [hm]
          exact Nat.one_le_two_pow
        have := hc (by omega)
        omega

/-- The `m` computed by `build_order_gray`: largest power of two `≤ n`. -/
def gray_m (n : ℕ) : ℕ := pow2grow n 64 1

/-- The Gray-code map `i ^ (i >> 1)` emitted by `build_order_gray`. -/
def grayFn (i : ℕ) : ℕ := i ^^^ (i >>> 1)

/-- Orderings from `build_order_gray`: Gray codes of `[0, m)` followed by
the remaining indices `[m, n)` in order. -/
def build_order_gray (n : ℕ) : List ℕ :=
  if n = 0 then []
  else (List.range (gray_m n)).map grayFn ++ List.range' (gray_m n) (n - gray_m n)

theorem grayFn_inj : Function.Injective grayFn := fun _ _ h =>
  xorShiftRight_inj (le_refl 1) h

theorem grayFn_lt {b i : ℕ} (hi : i < 2 ^ b) : grayFn i < 2 ^ b := by
  unfold grayFn
  apply Nat.xor_lt_two_pow hi
  rw [Nat.shiftRight_eq_div_pow]
  exact lt_of_le_of_lt (Nat.div_le_self _ _) hi

theorem grayFn_surj {b x : ℕ} (hx : x < 2 ^ b) : ∃ i, i < 2 ^ b ∧ grayFn i = x := by
  have himg : (Finset.range (2 ^ b)).image grayFn = Finset.range (2 ^ b) := by
    apply Finset.eq_of_subset_of_card_le
    · intro y hy
      rw [Finset.mem_image] at hy
      obtain ⟨i, hi, rfl⟩ := hy
      rw [Finset.mem_range] at hi ⊢
      exact grayFn_lt hi
    · rw [Finset.card_image_of_injOn (Function.Injective.injOn grayFn_inj),
        Finset.card_range]
  have hx' : x ∈ (Finset.range (2 ^ b)).image grayFn := by
    rw [himg, Finset.mem_range]
    exact hx
  rw [Finset.mem_image] at hx'
  obtain ⟨i, hi, hgi⟩ := hx'
  rw [Finset.mem_range] at hi
  exact ⟨i, hi, hgi⟩

theorem build_order_gray_perm (n : ℕ) (hn : 1 ≤ n) (hn64 : n < 2 ^ 64) :
    (build_order_gray n).Perm (List.range n) := by
  obtain ⟨b, hmb, hmle, hlt⟩ := pow2grow_spec n hn64 64 0 1 (by norm_num) (by omega) hn
  have hm_eq : gray_m n = 2 ^ b := hmb
  have hne : n ≠ 0 := by omega
  have hmem : ∀ x, x ∈ build_order_gray n ↔ x < n := by
    intro x
    unfold build_order_gray
    rw [if_neg hne, List.mem_append, List.mem_range', hm_eq]
    constructor
    · rintro (hmap | ⟨i, hi, rfl⟩)
      · rw [List.mem_map] at hmap
        obtain ⟨i, hi, rfl⟩ := hmap
        rw [List.mem_range] at hi
        have := grayFn_lt hi
        omega
      · omega
    · intro hx
      by_cases hxb : x < 2 ^ b
      · left
        rw [List.mem_map]
        obtain ⟨i, hi, hgi⟩ := grayFn_surj hxb
        exact ⟨i, List.mem_range.mpr hi, hgi⟩
      · right
        exact ⟨x - 2 ^ b, by omega, by omega⟩
  have hnd : (build_order_gray n).Nodup := by
    unfold build_order_gray
    rw [if_neg hne, List.nodup_append]
    refine ⟨List.Nodup.map grayFn_inj (List.nodup_range _), List.nodup_range' _ _, ?_⟩
    intro x hxm hxr
    rw [List.mem_map] at hxm
    obtain ⟨i, hi, rfl⟩ := hxm
    rw [List.mem_range] at hi
    rw [List.mem_range', hm_eq] at hxr
    obtain ⟨j, hj, hxe⟩ := hxr
    have := grayFn_lt (hm_eq ▸ hi)
    omega
  rw [List.perm_ext_iff_of_nodup hnd (List.nodup_range n)]
  intro a
  rw [hmem, List.mem_range]

/-- The bit-length loop of `build_order_bitrev`:
`bits = 0; while (tmp > 0) { bits++; tmp >>= 1; }`, with explicit fuel
(64 suffices for any `size_t` value). -/
def bitsLoop : ℕ → ℕ → ℕ
  | 0, _ => 0
  | f + 1, tmp => if tmp = 0 then 0 else 1 + bitsLoop f (tmp >>> 1)

theorem bitsLoop_spec : ∀ (f tmp : ℕ), tmp < 2 ^ f → tmp < 2 ^ bitsLoop f tmp := by
  intro f
  induction f with
  | zero =>
    intro tmp h
    have h0 : tmp = 0 := by simpa using h
    subst h0
    simp [bitsLoop]
  | succ f ih =>
    intro tmp h
    by_cases h0 : tmp = 0
    · subst h0
      simp [bitsLoop]
    · rw [bitsLoop, if_neg h0]
      have hsr : tmp >>> 1 = tmp / 2 := by rw [Nat.shiftRight_eq_div_pow, pow_one]
      rw [hsr]
      have hh : tmp / 2 < 2 ^ f := by
        rw [Nat.div_lt_iff_lt_mul (by norm_num)]
        calc tmp < 2 ^ (f + 1) := h
          _ = 2 ^ f * 2 := by ring
      have hrec := ih _ hh
      have h2 : (2 : ℕ) ^ (1 + bitsLoop f (tmp / 2)) = 2 * 2 ^ bitsLoop f (tmp / 2) := by
        rw [pow_add, pow_one]
      rw [h2]
      omega

/-- The helper `reverse_bits_limited`: `r = 0; for i in [0, bits):
r = (r << 1) | ((x >> i) & 1)`. -/
def reverse_bits_limited (x bits : ℕ) : ℕ :=
  (List.range bits).foldl (fun r i => (r <<< 1) ||| ((x >>> i) &&& 1)) 0

theorem reverse_bits_step (x b : ℕ) :
    reverse_bits_limited x (b + 1) =
      ((reverse_bits_limited x b) <<< 1) ||| ((x >>> b) &&& 1) := by
  unfold reverse_bits_limited
  rw [List.range_succ, List.foldl_append, List.foldl_cons, List.foldl_nil]

theorem testBit_and_one (y j : ℕ) :
    (y &&& 1).testBit j = (decide (j = 0) && y.testBit j) := by
  rw [Nat.testBit_and]
  have h1 : (1 : ℕ).testBit j = decide (0 = j) := by
    have := @Nat.testBit_two_pow 0 j
    simpa using this
  rw [h1]
  cases j with
  | zero => simp
  | succ j => simp

theorem reverse_bits_testBit (x : ℕ) : ∀ (bits j : ℕ),
    (reverse_bits_limited x bits).testBit j =
      (decide (j < bits) && x.testBit (bits - 1 - j)) := by
  intro bits
  induction bits with
  | zero =>
    intro j
    simp [reverse_bits_limited]
  | succ b ih =>
    intro j
    rw [reverse_bits_step, Nat.testBit_or, Nat.testBit_shiftLeft, testBit_and_one,
      Nat.testBit_shiftRight]
    cases j with
    | zero =>
      simp
    | succ j =>
      have h1 : (decide (j + 1 ≥ 1) : Bool) = true := by simp
      simp only [Nat.add_sub_cancel]
      rw [ih j]
      simp only [h1, Bool.true_and]
      have h2 : (decide (j + 1 = 0) : Bool) = false := by simp
      rw [h2, Bool.false_and, Bool.or_false]
      have h3 : b - (j + 1) = b - 1 - j := by omega
      rw [h3]
      by_cases hj : j < b
      · have : j + 1 < b + 1 := by omega
        simp [hj, this]
      · have : ¬(j + 1 < b + 1) := by omega
        simp [hj, this]

theorem reverse_bits_lt (x bits : ℕ) : reverse_bits_limited x bits < 2 ^ bits := by
  have hmod : reverse_bits_limited x bits = reverse_bits_limited x bits % 2 ^ bits := by
    apply Nat.eq_of_testBit_eq
    intro i
    rw [Nat.testBit_mod_two_pow, reverse_bits_testBit]
    by_cases hi : i < bits
    · simp [hi]
    · simp [hi]
  rw [hmod]
  exact Nat.mod_lt _ (by positivity)

theorem reverse_bits_invol {bits x : ℕ} (hx : x < 2 ^ bits) :
    reverse_bits_limited (reverse_bits_limited x bits) bits = x := by
  apply Nat.eq_of_testBit_eq
  intro j
  rw [reverse_bits_testBit, reverse_bits_testBit]
  by_cases hj : j < bits
  · have h1 : bits - 1 - j < bits := by omega
    have h2 : bits - 1 - (bits - 1 - j) = j := by omega
    simp [hj, h1, h2]
  · have hxj : x.testBit j = false := by
      apply Nat.testBit_lt_two_pow
      exact lt_of_lt_of_le hx (Nat.pow_le_pow_right (by norm_num) (by omega))
    simp [hj, hxj]

theorem reverse_bits_injOn {bits x y : ℕ} (hx : x < 2 ^ bits) (hy : y < 2 ^ bits)
    (h : reverse_bits_limited x bits = reverse_bits_limited y bits) : x = y := by
  rw [← reverse_bits_invol hx, ← reverse_bits_invol hy, h]

/-- Orderings from `build_order_bitrev`: with `bits` the bit length of
`n - 1`, emit `reverse_bits_limited i bits` for `i` up to `2^bits`, keeping
the values below `n`, stopping once `n` values have been produced. -/
def build_order_bitrev (n : ℕ) : List ℕ :=
  if n = 0 then []
  else
    (((List.range (2 ^ bitsLoop 64 (n - 1))).map
        (fun i => reverse_bits_limited i (bitsLoop 64 (n - 1)))).filter
      (fun r => decide (r < n))).take n

theorem build_order_bitrev_perm (n : ℕ) (hn : 1 ≤ n) (hn64 : n < 2 ^ 64) :
    (build_order_bitrev n).Perm (List.range n) := by
  have hnb : n ≤ 2 ^ bitsLoop 64 (n - 1) := by
    have := bitsLoop_spec 64 (n - 1) (by omega)
    omega
  have hnd : (((List.range (2 ^ bitsLoop 64 (n - 1))).map
      (fun i => reverse_bits_limited i (bitsLoop 64 (n - 1)))).filter
        (fun r => decide (r < n))).Nodup := by
    apply List.Nodup.filter
    apply List.Nodup.map_on
    · intro i hi j hj hij
      rw [List.mem_range] at hi hj
      exact reverse_bits_injOn hi hj hij
    · exact List.nodup_range _
  have hmem : ∀ x, x ∈ (((List.range (2 ^ bitsLoop 64 (n - 1))).map
      (fun i => reverse_bits_limited i (bitsLoop 64 (n - 1)))).filter
        (fun r => decide (r < n))) ↔ x < n := by
    intro x
    rw [List.mem_filter, List.mem_map]
    constructor
    · rintro ⟨⟨i, hi, rfl⟩, hdec⟩
      simpa using hdec
    · intro hx
      refine ⟨⟨reverse_bits_limited x (bitsLoop 64 (n - 1)), ?_,
        reverse_bits_invol (lt_of_lt_of_le hx hnb)⟩, by simpa⟩
      rw [List.mem_range]
      exact reverse_bits_lt x _
  have hperm : (((List.range (2 ^ bitsLoop 64 (n - 1))).map
      (fun i => reverse_bits_limited i (bitsLoop 64 (n - 1)))).filter
        (fun r => decide (r < n))).Perm (List.range n) := by
    rw [List.perm_ext_iff_of_nodup hnd (List.nodup_range n)]
    intro a
    rw [hmem, List.mem_range]
  have hlen : (((List.range (2 ^ bitsLoop 64 (n - 1))).map
      (fun i => reverse_bits_limited i (bitsLoop 64 (n - 1)))).filter
        (fun r => decide (r < n))).length = n := by
    rw [hperm.length_eq, List.length_range]
  unfold build_order_bitrev
  rw [if_neg (by omega), List.take_of_length_le (le_of_eq hlen)]
  exact hperm

/-! ### `build_order_stride` (lines 140-163)

The C function keeps a `visited` byte array; the inner `while (!visited[i])`
walk and the outer restart loop are modelled with explicit fuel (`n + 1`
steps suffice: the inner walk marks a fresh node each step and the outer
loop emits at least one node per iteration). -/

theorem getD_set_self (v : List Bool) (i : ℕ) (hi : i < v.length) (a d : Bool) :
    (v.set i a).getD i d = a := by
  rw [List.getD_eq_getElem?_getD, List.getElem?_set_self hi]
  rfl

theorem getD_set_ne (v : List Bool) {i j : ℕ} (h : i ≠ j) (a d : Bool) :
    (v.set i a).getD j d = v.getD j d := by
  rw [List.getD_eq_getElem?_getD, List.getElem?_set_ne h, ← List.getD_eq_getElem?_getD]

theorem getD_replicate_lt {n j : ℕ} (h : j < n) (a d : Bool) :
    (List.replicate n a).getD j d = a := by
  rw [List.getD_eq_getElem?_getD, List.getElem?_replicate, if_pos h]
  rfl

theorem nodup_full_mem {l : List ℕ} {n : ℕ} (hnd : l.Nodup)
    (hlt : ∀ x ∈ l, x < n) (hlen : n ≤ l.length) : ∀ x, x < n → x ∈ l := by
  intro x hx
  have hsub : l.toFinset ⊆ Finset.range n := by
    intro y hy
    rw [List.mem_toFinset] at hy
    rw [Finset.mem_range]
    exact hlt y hy
  have hcard : (Finset.range n).card ≤ l.toFinset.card := by
    rw [Finset.card_range, List.toFinset_card_of_nodup hnd]
    exact hlen
  have heq := Finset.eq_of_subset_of_card_le hsub hcard
  have : x ∈ l.toFinset := by
    rw [heq, Finset.mem_range]
    exact hx
  rwa [List.mem_toFinset] at this

/-- The inner walk `while (!visited[i]) { order[count++] = i; visited[i] = 1;
i = (i + k) % num_nodes; }`, returning the emitted orbit and the updated
`visited` array. -/
def strideWalk (n k : ℕ) : ℕ → ℕ → List Bool → List ℕ × List Bool
  | 0, _, visited => ([], visited)
  | f + 1, i, visited =>
    if visited.getD i true then ([], visited)
    else
      let res := strideWalk n k f ((i + k) % n) (visited.set i true)
      (i :: res.1, res.2)

theorem strideWalk_spec (n k : ℕ) (hn : 0 < n) : ∀ (f i : ℕ) (v : List Bool),
    v.length = n → i < n →
    (strideWalk n k f i v).2.length = n ∧
    (∀ j, j < n → ((strideWalk n k f i v).2.getD j true = true ↔
      (v.getD j true = true ∨ j ∈ (strideWalk n k f i v).1))) ∧
    (strideWalk n k f i v).1.Nodup ∧
    (∀ x ∈ (strideWalk n k f i v).1, x < n ∧ v.getD x true = false) ∧
    (v.getD i true = false → 0 < f → (strideWalk n k f i v).1 ≠ []) := by
  intro f
  induction f with
  | zero =>
    intro i v hv hi
    refine ⟨hv, ?_, List.nodup_nil, ?_, ?_⟩
    · intro j hj
      simp [strideWalk]
    · intro x hx
      simp [strideWalk] at hx
    · intro _ hf
      omega
  | succ f ih =>
    intro i v hv hi
    by_cases hvi : v.getD i true = true
    · rw [strideWalk, if_pos hvi]
      refine ⟨hv, ?_, List.nodup_nil, ?_, ?_⟩
      · intro j hj
        simp
      · intro x hx
        simp at hx
      · intro hfalse _
        rw [hvi] at hfalse
        exact absurd hfalse (by simp)
    · have hvi' : v.getD i true = false := by
        cases hb : v.getD i true
        · rfl
        · exact absurd hb hvi
      have hset : (v.set i true).length = n := by
        rw [List.length_set]
        exact hv
      have hik : (i + k) % n < n := Nat.mod_lt _ hn
      obtain ⟨ih1, ih2, ih3, ih4, _⟩ := ih ((i + k) % n) (v.set i true) hset hik
      have hunf : strideWalk n k (f + 1) i v =
          (i :: (strideWalk n k f ((i + k) % n) (v.set i true)).1,
            (strideWalk n k f ((i + k) % n) (v.set i true)).2) := by
        rw [strideWalk, if_neg hvi]
      rw [hunf]
      have hilen : i < v.length := by omega
      refine ⟨ih1, ?_, ?_, ?_, ?_⟩
      · intro j hj
        rw [ih2 j hj]
        by_cases hji : j = i
        · subst hji
          rw [getD_set_self v j hilen]
          simp
        · rw [getD_set_ne v (fun h => hji h.symm)]
          simp only [List.mem_cons]
          constructor
          · rintro (h | h)
            · exact Or.inl h
            · exact Or.inr (Or.inr h)
          · rintro (h | h | h)
            · exact Or.inl h
            · exact absurd h hji
            · exact Or.inr h
      · rw [List.nodup_cons]
        refine ⟨?_, ih3⟩
        intro hmem
        have := (ih4 i hmem).2
        rw [getD_set_self v i hilen] at this
        exact absurd this (by simp)
      · intro x hx
        rw [List.mem_cons] at hx
        rcases hx with rfl | hx
        · exact ⟨hi, hvi'⟩
        · obtain ⟨hxn, hxv⟩ := ih4 x hx
          by_cases hxi : x = i
          · subst hxi
            rw [getD_set_self v x hilen] at hxv
            exact absurd hxv (by simp)
          · rw [getD_set_ne v (fun h => hxi h.symm)] at hxv
            exact ⟨hxn, hxv⟩
      · intro _ _
        simp

/-- The restart scan `while (start < num_nodes && visited[start]) start++;`,
returning the first unvisited index at or after `start`, or `none` when the
scan runs past `num_nodes`. -/
def scanFirst (v : List Bool) (n : ℕ) : ℕ → ℕ → Option ℕ
  | 0, _ => none
  | f + 1, start =>
    if start < n then
      if v.getD start true then scanFirst v n f (start + 1) else some start
    else none

theorem scanFirst_none (v : List Bool) (n : ℕ) : ∀ (f start : ℕ),
    n + 1 ≤ f + start → scanFirst v n f start = none →
    ∀ j, start ≤ j → j < n → v.getD j true = true := by
  intro f
  induction f with
  | zero =>
    intro start hfs _ j hj hjn
    omega
  | succ f ih =>
    intro start hfs hnone j hj hjn
    by_cases hs : start < n
    · rw [scanFirst, if_pos hs] at hnone
      by_cases hvs : v.getD start true = true
      · rw [if_pos hvs] at hnone
        by_cases hjs : j = start
        · subst hjs
          exact hvs
        · exact ih (start + 1) (by omega) hnone j (by omega) hjn
      · rw [if_neg hvs] at hnone
        exact absurd hnone (by simp)
    · omega

theorem scanFirst_some (v : List Bool) (n : ℕ) : ∀ (f start s2 : ℕ),
    scanFirst v n f start = some s2 →
    start ≤ s2 ∧ s2 < n ∧ v.getD s2 true = false ∧
      (∀ j, start ≤ j → j < s2 → v.getD j true = true) := by
  intro f
  induction f with
  | zero =>
    intro start s2 h
    exact absurd h (by simp [scanFirst])
  | succ f ih =>
    intro start s2 h
    by_cases hs : start < n
    · rw [scanFirst, if_pos hs] at h
      by_cases hvs : v.getD start true = true
      · rw [if_pos hvs] at h
        obtain ⟨h1, h2, h3, h4⟩ := ih (start + 1) s2 h
        refine ⟨by omega, h2, h3, ?_⟩
        intro j hj hjs
        by_cases hjst : j = start
        · subst hjst
          exact hvs
        · exact h4 j (by omega) hjs
      · rw [if_neg hvs] at h
        have hse : s2 = start := by
          cases h
          rfl
        subst hse
        refine ⟨le_rfl, hs, ?_, ?_⟩
        · cases hb : v.getD s2 true
          · rfl
          · exact absurd hb hvs
        · intro j hj hjs
          omega
    · rw [scanFirst, if_neg hs] at h
      exact absurd h (by simp)

/-- The outer loop of `build_order_stride`: while fewer than `n` indices
have been emitted, walk an orbit from `start`, then scan for the next
unvisited index; stop when the scan runs out. -/
def strideOuter (n k : ℕ) : ℕ → ℕ → List Bool → List ℕ → List ℕ
  | 0, _, _, acc => acc
  | f + 1, start, visited, acc =>
    if acc.length < n then
      let w := strideWalk n k (n + 1) start visited
      let acc2 := acc ++ w.1
      if acc2.length < n then
        match scanFirst w.2 n (n + 1) start with
        | some s2 => strideOuter n k f s2 w.2 acc2
        | none => acc2
      else acc2
    else acc

theorem strideOuter_spec (n k : ℕ) (hn : 0 < n) :
    ∀ (f start : ℕ) (v : List Bool) (acc : List ℕ),
    v.length = n → acc.Nodup → (∀ x ∈ acc, x < n) →
    (∀ j, j < n → (v.getD j true = true ↔ j ∈ acc)) →
    start < n → v.getD start true = false →
    (∀ j, j < start → v.getD j true = true) →
    n ≤ f + acc.length →
    (strideOuter n k f start v acc).Nodup ∧
      (∀ x, x ∈ strideOuter n k f start v acc ↔ x < n) := by
  intro f
  induction f with
  | zero =>
    intro start v acc hv hnd hlt hflag hst hstf _ hfuel
    exfalso
    have hmem := nodup_full_mem hnd hlt (by omega) start hst
    have := (hflag start hst).mpr hmem
    rw [hstf] at this
    exact absurd this (by simp)
  | succ f ih =>
    intro start v acc hv hnd hlt hflag hst hstf hpre hfuel
    by_cases hacc : acc.length < n
    · obtain ⟨w1len, wflag, wnd, wmem, wne⟩ :=
        strideWalk_spec n k hn (n + 1) start v hv hst
      have hdisj : ∀ x ∈ (strideWalk n k (n + 1) start v).1, x ∉ acc := by
        intro x hx hxa
        have := (wmem x hx).2
        have h2 := (hflag x (wmem x hx).1).mpr hxa
        rw [this] at h2
        exact absurd h2 (by simp)
      have hnd2 : (acc ++ (strideWalk n k (n + 1) start v).1).Nodup := by
        rw [List.nodup_append]
        exact ⟨hnd, wnd, fun x hx hx2 => hdisj x hx2 hx⟩
      have hlt2 : ∀ x ∈ acc ++ (strideWalk n k (n + 1) start v).1, x < n := by
        intro x hx
        rw [List.mem_append] at hx
        rcases hx with hx | hx
        · exact hlt x hx
        · exact (wmem x hx).1
      have hflag2 : ∀ j, j < n → ((strideWalk n k (n + 1) start v).2.getD j true = true ↔
          j ∈ acc ++ (strideWalk n k (n + 1) start v).1) := by
        intro j hj
        rw [wflag j hj, List.mem_append, hflag j hj]
      have hne : (strideWalk n k (n + 1) start v).1 ≠ [] := wne hstf (by omega)
      have hlen2 : acc.length + 1 ≤ (acc ++ (strideWalk n k (n + 1) start v).1).length := by
        rw [List.length_append]
        have := List.length_pos.mpr hne
        omega
      have hunf : strideOuter n k (f + 1) start v acc =
          (if (acc ++ (strideWalk n k (n + 1) start v).1).length < n then
            match scanFirst (strideWalk n k (n + 1) start v).2 n (n + 1) start with
            | some s2 => strideOuter n k f s2 (strideWalk n k (n + 1) start v).2
                (acc ++ (strideWalk n k (n + 1) start v).1)
            | none => acc ++ (strideWalk n k (n + 1) start v).1
          else acc ++ (strideWalk n k (n + 1) start v).1) := by
        rw [strideOuter, if_pos hacc]
      rw [hunf]
      by_cases hacc2 : (acc ++ (strideWalk n k (n + 1) start v).1).length < n
      · rw [if_pos hacc2]
        rcases hscan : scanFirst (strideWalk n k (n + 1) start v).2 n (n + 1) start with _ | s2
        · -- scan exhausted: all indices are visited, so everything was emitted
          exfalso
          have hall : ∀ j, start ≤ j → j < n →
              (strideWalk n k (n + 1) start v).2.getD j true = true :=
            scanFirst_none _ n (n + 1) start (by omega) hscan
          have hall2 : ∀ j, j < n → j ∈ acc ++ (strideWalk n k (n + 1) start v).1 := by
            intro j hj
            rcases lt_or_le j start with hjs | hjs
            · have hvj := hpre j hjs
              have := (hflag j hj).mp hvj
              rw [List.mem_append]
              exact Or.inl this
            · exact (hflag2 j hj).mp (hall j hjs hj)
          have hsub : ∀ x ∈ List.range n, x ∈ acc ++ (strideWalk n k (n + 1) start v).1 := by
            intro x hx
            rw [List.mem_range] at hx
            exact hall2 x hx
          have hcard : n ≤ (acc ++ (strideWalk n k (n + 1) start v).1).length := by
            have hsp := List.Nodup.subperm (List.nodup_range n) hsub
            have := hsp.length_le
            rwa [List.length_range] at this
          omega
        · obtain ⟨hs1, hs2, hs3, hs4⟩ := scanFirst_some _ n (n + 1) start s2 hscan
          have hpre2 : ∀ j, j < s2 → (strideWalk n k (n + 1) start v).2.getD j true = true := by
            intro j hj
            rcases lt_or_le j start with hjs | hjs
            · have hvj := hpre j hjs
              have h1 := (hflag j (by omega)).mp hvj
              exact (hflag2 j (by omega)).mpr (by rw [List.mem_append]; exact Or.inl h1)
            · exact hs4 j hjs hj
          exact ih s2 (strideWalk n k (n + 1) start v).2
            (acc ++ (strideWalk n k (n + 1) start v).1) w1len hnd2 hlt2 hflag2
            hs2 hs3 hpre2 (by omega)
      · rw [if_neg hacc2]
        refine ⟨hnd2, ?_⟩
        intro x
        constructor
        · exact hlt2 x
        · exact fun hx => nodup_full_mem hnd2 hlt2 (by omega) x hx
    · rw [strideOuter, if_neg hacc]
      exfalso
      have hmem := nodup_full_mem hnd hlt (by omega) start hst
      have := (hflag start hst).mpr hmem
      rw [hstf] at this
      exact absurd this (by simp)

/-- Orderings from `build_order_stride`: `k == 0` is replaced by `1`, the
walk starts at index `0` with a fresh `visited` array (the model assumes the
`calloc` of `visited` succeeds; on failure the C falls back to the
sequential order). -/
def build_order_stride (n k : ℕ) : List ℕ :=
  if n = 0 then []
  else strideOuter n (if k = 0 then 1 else k) (n + 1) 0 (List.replicate n false) []

theorem build_order_stride_perm (n k : ℕ) (hn : 1 ≤ n) :
    (build_order_stride n k).Perm (List.range n) := by
  unfold build_order_stride
  rw [if_neg (by omega)]
  obtain ⟨hnd, hmem⟩ := strideOuter_spec n (if k = 0 then 1 else k) (by omega)
    (n + 1) 0 (List.replicate n false) [] (List.length_replicate n false)
    List.nodup_nil (by simp)
    (by
      intro j hj
      rw [getD_replicate_lt hj]
      simp)
    (by omega) (getD_replicate_lt (by omega) false true) (by omega)
    (by simp)
  rw [List.perm_ext_iff_of_nodup hnd (List.nodup_range n)]
  intro a
  rw [hmem, List.mem_range]

theorem strideOuter_append (n k : ℕ) : ∀ (f start : ℕ) (v : List Bool) (acc : List ℕ),
    ∃ t, strideOuter n k f start v acc = acc ++ t := by
  intro f
  induction f with
  | zero =>
    intro start v acc
    exact ⟨[], by simp [strideOuter]⟩
  | succ f ih =>
    intro start v acc
    by_cases hacc : acc.length < n
    · have hunf : strideOuter n k (f + 1) start v acc =
          (if (acc ++ (strideWalk n k (n + 1) start v).1).length < n then
            match scanFirst (strideWalk n k (n + 1) start v).2 n (n + 1) start with
            | some s2 => strideOuter n k f s2 (strideWalk n k (n + 1) start v).2
                (acc ++ (strideWalk n k (n + 1) start v).1)
            | none => acc ++ (strideWalk n k (n + 1) start v).1
          else acc ++ (strideWalk n k (n + 1) start v).1) := by
        rw [strideOuter, if_pos hacc]
      rw [hunf]
      by_cases hacc2 : (acc ++ (strideWalk n k (n + 1) start v).1).length < n
      · rw [if_pos hacc2]
        rcases hscan : scanFirst (strideWalk n k (n + 1) start v).2 n (n + 1) start with _ | s2
        · exact ⟨(strideWalk n k (n + 1) start v).1, rfl⟩
        · obtain ⟨t, ht⟩ := ih s2 (strideWalk n k (n + 1) start v).2
            (acc ++ (strideWalk n k (n + 1) start v).1)
          refine ⟨(strideWalk n k (n + 1) start v).1 ++ t, ?_⟩
          show strideOuter n k f s2 (strideWalk n k (n + 1) start v).2
              (acc ++ (strideWalk n k (n + 1) start v).1) =
            acc ++ ((strideWalk n k (n + 1) start v).1 ++ t)
          rw [ht, List.append_assoc]
      · rw [if_neg hacc2]
        exact ⟨(strideWalk n k (n + 1) start v).1, rfl⟩
    · rw [strideOuter, if_neg hacc]
      exact ⟨[], by simp⟩

theorem build_order_stride_head (n k : ℕ) (hn : 1 ≤ n) :
    ∃ t, build_order_stride n k = 0 :: t := by
  unfold build_order_stride
  rw [if_neg (by omega)]
  have hv0 : (List.replicate n false).getD 0 true = false :=
    getD_replicate_lt (by omega) false true
  have hwalk : (strideWalk n (if k = 0 then 1 else k) (n + 1) 0
      (List.replicate n false)).1 =
      0 :: (strideWalk n (if k = 0 then 1 else k) n ((0 + (if k = 0 then 1 else k)) % n)
        ((List.replicate n false).set 0 true)).1 := by
    rw [strideWalk]
    rw [hv0]
    simp
  have hacc : ([] : List ℕ).length < n := by simp; omega
  have hunf : strideOuter n (if k = 0 then 1 else k) (n + 1) 0 (List.replicate n false) [] =
      (if (([] : List ℕ) ++ (strideWalk n (if k = 0 then 1 else k) (n + 1) 0
          (List.replicate n false)).1).length < n then
        match scanFirst (strideWalk n (if k = 0 then 1 else k) (n + 1) 0
            (List.replicate n false)).2 n (n + 1) 0 with
        | some s2 => strideOuter n (if k = 0 then 1 else k) n s2
            (strideWalk n (if k = 0 then 1 else k) (n + 1) 0 (List.replicate n false)).2
            (([] : List ℕ) ++ (strideWalk n (if k = 0 then 1 else k) (n + 1) 0
              (List.replicate n false)).1)
        | none => ([] : List ℕ) ++ (strideWalk n (if k = 0 then 1 else k) (n + 1) 0
            (List.replicate n false)).1
      else ([] : List ℕ) ++ (strideWalk n (if k = 0 then 1 else k) (n + 1) 0
          (List.replicate n false)).1) := by
    rw [strideOuter, if_pos hacc]
  rw [hunf]
  by_cases hacc2 : (([] : List ℕ) ++ (strideWalk n (if k = 0 then 1 else k) (n + 1) 0
      (List.replicate n false)).1).length < n
  · rw [if_pos hacc2]
    rcases hscan : scanFirst (strideWalk n (if k = 0 then 1 else k) (n + 1) 0
        (List.replicate n false)).2 n (n + 1) 0 with _ | s2
    · show ∃ t, ([] : List ℕ) ++ (strideWalk n (if k = 0 then 1 else k) (n + 1) 0
          (List.replicate n false)).1 = 0 :: t
      rw [List.nil_append, hwalk]
      exact ⟨_, rfl⟩
    · obtain ⟨t, ht⟩ := strideOuter_append n (if k = 0 then 1 else k) n s2
        (strideWalk n (if k = 0 then 1 else k) (n + 1) 0 (List.replicate n false)).2
        (([] : List ℕ) ++ (strideWalk n (if k = 0 then 1 else k) (n + 1) 0
          (List.replicate n false)).1)
      show ∃ t2, strideOuter n (if k = 0 then 1 else k) n s2
          (strideWalk n (if k = 0 then 1 else k) (n + 1) 0 (List.replicate n false)).2
          (([] : List ℕ) ++ (strideWalk n (if k = 0 then 1 else k) (n + 1) 0
            (List.replicate n false)).1) = 0 :: t2
      rw [ht, List.nil_append, hwalk]
      exact ⟨_, rfl⟩
  · rw [if_neg hacc2, List.nil_append, hwalk]
    exact ⟨_, rfl⟩

/-! ## Pattern dispatch (`build_cycle_pattern`, lines 212-224)

The C `Pattern` enum is an `int`; values `0..6` select the builders and any
other value falls through the `default:` arm to the random builder.  The
stride arm passes `pattern_arg == 0 ? 1 : pattern_arg`. -/

def build_order (p parg : ℕ) (J : ℕ → ℕ) (n : ℕ) : List ℕ :=
  if p = 0 then build_order_random J n
  else if p = 1 then build_order_sequential n
  else if p = 2 then build_order_reverse n
  else if p = 3 then build_order_stride n (if parg = 0 then 1 else parg)
  else if p = 4 then build_order_interleave n
  else if p = 5 then build_order_gray n
  else if p = 6 then build_order_bitrev n
  else build_order_random J n

/-- C4: for every pattern value (the seven named ones and any unknown value,
which falls back to random) and every `n ≥ 2` (`n` a `size_t`, so below
`2^64`), the order builder produces a permutation of `[0, n)`.  `J i` is the
value the PRNG's `rng_uniform(i+1)` returned, always `≤ i`. -/
theorem build_order_perm (p parg n : ℕ) (J : ℕ → ℕ) (hn : 2 ≤ n)
    (hn64 : n < 2 ^ 64) (hJ : ∀ i, J i ≤ i) :
    (build_order p parg J n).Perm (List.range n) := by
  unfold build_order
  split
  · exact build_order_random_perm J n (by omega) hJ
  · split
    · exact build_order_sequential_perm n
    · split
      · exact build_order_reverse_perm n
      · split
        · exact build_order_stride_perm n _ (by omega)
        · split
          · exact build_order_interleave_perm n
          · split
            · exact build_order_gray_perm n (by omega) hn64
            · split
              · exact build_order_bitrev_perm n (by omega) hn64
              · exact build_order_random_perm J n (by omega) hJ

/-- C4 witness: every pattern value in `0..7` (7 exercising the unknown
fallback) at `n = 8`, with the zero draw sequence for the random builder. -/
theorem build_order_perm_witness :
    (2 ≤ 8) ∧ (8 < 2 ^ 64) ∧
    ((build_order 0 1 (fun _ => 0) 8).Perm (List.range 8) ∧
      (build_order 1 1 (fun _ => 0) 8).Perm (List.range 8) ∧
      (build_order 2 1 (fun _ => 0) 8).Perm (List.range 8) ∧
      (build_order 3 3 (fun _ => 0) 8).Perm (List.range 8) ∧
      (build_order 4 1 (fun _ => 0) 8).Perm (List.range 8) ∧
      (build_order 5 1 (fun _ => 0) 8).Perm (List.range 8) ∧
      (build_order 6 1 (fun _ => 0) 8).Perm (List.range 8) ∧
      (build_order 7 1 (fun _ => 0) 8).Perm (List.range 8)) :=
  ⟨by norm_num, by norm_num,
    build_order_perm 0 1 8 _ (by norm_num) (by norm_num) (fun i => Nat.zero_le i),
    build_order_perm 1 1 8 _ (by norm_num) (by norm_num) (fun i => Nat.zero_le i),
    build_order_perm 2 1 8 _ (by norm_num) (by norm_num) (fun i => Nat.zero_le i),
    build_order_perm 3 3 8 _ (by norm_num) (by norm_num) (fun i => Nat.zero_le i),
    build_order_perm 4 1 8 _ (by norm_num) (by norm_num) (fun i => Nat.zero_le i),
    build_order_perm 5 1 8 _ (by norm_num) (by norm_num) (fun i => Nat.zero_le i),
    build_order_perm 6 1 8 _ (by norm_num) (by norm_num) (fun i => Nat.zero_le i),
    build_order_perm 7 1 8 _ (by norm_num) (by norm_num) (fun i => Nat.zero_le i)⟩

/-- C8: the stride ordering starts at index `0`, advances by `k mod n`
marking visited nodes, restarts from the next unvisited index when an orbit
closes, and concatenates the orbits; in particular for `n = 8`, `k = 3` it
yields `[0, 3, 6, 1, 4, 7, 2, 5]`, and for every `n ≥ 1` the first emitted
index is `0`. -/
theorem build_order_stride_result (n k : ℕ) (hn : 1 ≤ n) :
    (∃ t, build_order_stride n k = 0 :: t) ∧
    build_order_stride 8 3 = [0, 3, 6, 1, 4, 7, 2, 5] :=
  ⟨build_order_stride_head n k hn, by decide⟩

/-- C8 witness: the theorem applied at `n = 8`, `k = 3`. -/
theorem build_order_stride_result_witness :
    (1 ≤ 8) ∧ ((∃ t, build_order_stride 8 3 = 0 :: t) ∧
      build_order_stride 8 3 = [0, 3, 6, 1, 4, 7, 2, 5]) :=
  ⟨by norm_num, build_order_stride_result 8 3 (by norm_num)⟩

/-! ## ChaseGraph (`build_cycle_from_order`, lines 112-120)

Memory is modelled at node granularity: the pointer slot of the node at
byte offset `idx * node_stride` holds the byte offset of the next node
(`base` cancels on both sides of each write).  `writeStep` is one
`*(void **)from_ptr = to_ptr` store; the loop is the fold over
`i = 0 .. n-1`. -/

def writeStep (m : ℕ → ℕ) (w : ℕ × ℕ) : ℕ → ℕ :=
  fun a => if a = w.1 then w.2 else m a

/-- The (from, to) address pairs written by `build_cycle_from_order`:
`from = order[i] * node_stride`, `to = order[(i+1) % n] * node_stride`. -/
def cyclePairs (S n : ℕ) (P : List ℕ) : List (ℕ × ℕ) :=
  (List.range n).map (fun i => (P.getD i 0 * S, P.getD ((i + 1) % n) 0 * S))

/-- The memory contents after `build_cycle_from_order` runs (all-zero
initial memory, as the Driver memsets the buffer). -/
def build_cycle_from_order (S n : ℕ) (P : List ℕ) : ℕ → ℕ :=
  (cyclePairs S n P).foldl writeStep (fun _ => 0)

theorem foldl_writeStep_not_mem (L : List (ℕ × ℕ)) (m : ℕ → ℕ) (f : ℕ)
    (hf : f ∉ L.map Prod.fst) : L.foldl writeStep m f = m f := by
  induction L generalizing m with
  | nil => rfl
  | cons w L' ih =>
    simp only [List.map_cons, List.mem_cons] at hf
    push_neg at hf
    rw [List.foldl_cons, ih _ hf.2]
    unfold writeStep
    rw [if_neg hf.1]

theorem foldl_writeStep_mem (L : List (ℕ × ℕ)) (m : ℕ → ℕ) (f t : ℕ)
    (hnd : (L.map Prod.fst).Nodup) (hmem : (f, t) ∈ L) :
    L.foldl writeStep m f = t := by
  induction L generalizing m with
  | nil => simp at hmem
  | cons w L' ih =>
    rw [List.map_cons, List.nodup_cons] at hnd
    rw [List.mem_cons] at hmem
    rcases hmem with rfl | hmem
    · rw [List.foldl_cons, foldl_writeStep_not_mem L' _ _ hnd.1]
      unfold writeStep
      rw [if_pos rfl]
    · rw [List.foldl_cons]
      exact ih _ hnd.2 hmem

theorem getD_eq_get (l : List ℕ) {i : ℕ} (hi : i < l.length) (d : ℕ) :
    l.getD i d = l.get ⟨i, hi⟩ := by
  rw [List.getD_eq_getElem?_getD, List.getElem?_eq_getElem hi]
  rfl

theorem nodup_getD_inj {l : List ℕ} (hnd : l.Nodup) {i j : ℕ}
    (hi : i < l.length) (hj : j < l.length)
    (h : l.getD i 0 = l.getD j 0) : i = j := by
  rw [getD_eq_get l hi, getD_eq_get l hj] at h
  have h2 : (⟨i, hi⟩ : Fin l.length) = ⟨j, hj⟩ := (List.Nodup.get_inj_iff hnd).mp h
  exact congrArg Fin.val h2

theorem cyclePairs_keys_nodup (S n : ℕ) (P : List ℕ) (hS : 1 ≤ S)
    (hnd : P.Nodup) (hlen : P.length = n) :
    ((cyclePairs S n P).map Prod.fst).Nodup := by
  unfold cyclePairs
  rw [List.map_map]
  apply List.Nodup.map_on
  · intro i hi j hj h
    rw [List.mem_range] at hi hj
    simp only [Function.comp] at h
    have h2 : P.getD i 0 = P.getD j 0 :=
      Nat.eq_of_mul_eq_mul_right (by omega) h
    exact nodup_getD_inj hnd (by omega) (by omega) h2
  · exact List.nodup_range n

theorem build_cycle_next (S n : ℕ) (P : List ℕ) (hS : 1 ≤ S)
    (hnd : P.Nodup) (hlen : P.length = n) {i : ℕ} (hi : i < n) :
    build_cycle_from_order S n P (P.getD i 0 * S) = P.getD ((i + 1) % n) 0 * S := by
  unfold build_cycle_from_order
  apply foldl_writeStep_mem _ _ _ _ (cyclePairs_keys_nodup S n P hS hnd hlen)
  unfold cyclePairs
  rw [List.mem_map]
  exact ⟨i, List.mem_range.mpr hi, rfl⟩

theorem build_cycle_iterate (S n : ℕ) (P : List ℕ) (hS : 1 ≤ S) (hn : 1 ≤ n)
    (hnd : P.Nodup) (hlen : P.length = n) {i : ℕ} (hi : i < n) (j : ℕ) :
    (build_cycle_from_order S n P)^[j] (P.getD i 0 * S) =
      P.getD ((i + j) % n) 0 * S := by
  induction j with
  | zero =>
    simp only [Function.iterate_zero, id_eq, Nat.add_zero]
    rw [Nat.mod_eq_of_lt hi]
  | succ j ih =>
    rw [Function.iterate_succ_apply', ih,
      build_cycle_next S n P hS hnd hlen (Nat.mod_lt _ (by omega))]
    have h1 : ((i + j) % n + 1) % n = (i + (j + 1)) % n := by
      conv_lhs => rw [Nat.add_mod]
      rw [Nat.mod_mod_of_dvd _ dvd_rfl, ← Nat.add_mod, Nat.add_assoc]
    rw [h1]

theorem mod_succ_inj {n i j : ℕ} (hi : i < n) (hj : j < n)
    (h : (i + 1) % n = (j + 1) % n) : i = j := by
  rcases Nat.lt_or_ge (i + 1) n with h1 | h1 <;>
    rcases Nat.lt_or_ge (j + 1) n with h2 | h2
  · rw [Nat.mod_eq_of_lt h1, Nat.mod_eq_of_lt h2] at h
    omega
  · have hje : j + 1 = n := by omega
    rw [Nat.mod_eq_of_lt h1, hje, Nat.mod_self] at h
    omega
  · have hie : i + 1 = n := by omega
    rw [Nat.mod_eq_of_lt h2, hie, Nat.mod_self] at h
    omega
  · omega

/-- C5: for a permutation `P` of `[0, n)` with `n ≥ 2`, the chase graph
stores at node `P[i]` (byte offset `P[i]·stride`) a pointer to node
`P[(i+1) mod n]`; the successor map is injective on the nodes (one incoming
edge each), following it `n` steps from any node returns to that node, and
any node reaches any other in fewer than `n` steps (a single Hamiltonian
cycle, no subcycles). -/
theorem build_cycle_graph_props (S n i j a b : ℕ) (P : List ℕ) (hS : 1 ≤ S)
    (hn : 2 ≤ n) (hP : P.Perm (List.range n)) (hi : i < n) (hj : j < n)
    (ha : a < n) (hb : b < n) :
    build_cycle_from_order S n P (P.getD i 0 * S) = P.getD ((i + 1) % n) 0 * S ∧
    (build_cycle_from_order S n P (P.getD i 0 * S) =
      build_cycle_from_order S n P (P.getD j 0 * S) → i = j) ∧
    (build_cycle_from_order S n P)^[n] (P.getD i 0 * S) = P.getD i 0 * S ∧
    (∃ m, m < n ∧
      (build_cycle_from_order S n P)^[m] (P.getD a 0 * S) = P.getD b 0 * S) := by
  have hnd : P.Nodup := hP.nodup_iff.mpr (List.nodup_range n)
  have hlen : P.length = n := by
    have := hP.length_eq
    rwa [List.length_range] at this
  refine ⟨build_cycle_next S n P hS hnd hlen hi, ?_, ?_, ?_⟩
  · intro h
    rw [build_cycle_next S n P hS hnd hlen hi,
      build_cycle_next S n P hS hnd hlen hj] at h
    have h2 : P.getD ((i + 1) % n) 0 = P.getD ((j + 1) % n) 0 :=
      Nat.eq_of_mul_eq_mul_right (by omega) h
    have h3 := nodup_getD_inj hnd (by rw [hlen]; exact Nat.mod_lt _ (by omega))
      (by rw [hlen]; exact Nat.mod_lt _ (by omega)) h2
    exact mod_succ_inj hi hj h3
  · rw [build_cycle_iterate S n P hS (by omega) hnd hlen hi n,
      Nat.add_mod_right, Nat.mod_eq_of_lt hi]
  · refine ⟨(b + n - a) % n, Nat.mod_lt _ (by omega), ?_⟩
    rw [build_cycle_iterate S n P hS (by omega) hnd hlen ha]
    have h1 : (a + (b + n - a) % n) % n = (a + (b + n - a)) % n := by
      conv_lhs => rw [Nat.add_mod]
      rw [Nat.mod_mod_of_dvd _ dvd_rfl, ← Nat.add_mod]
    have h2 : a + (b + n - a) = b + n := by omega
    rw [h1, h2, Nat.add_mod_right, Nat.mod_eq_of_lt hb]

/-- C5 witness: the spec's concrete scenario, `P = [2, 0, 1]` over three
nodes at stride `8`. -/
theorem build_cycle_graph_props_witness :
    (1 ≤ 8) ∧ (2 ≤ 3) ∧ ([2, 0, 1].Perm (List.range 3)) ∧
    (build_cycle_from_order 8 3 [2, 0, 1] ([2, 0, 1].getD 0 0 * 8) =
        [2, 0, 1].getD ((0 + 1) % 3) 0 * 8 ∧
      (build_cycle_from_order 8 3 [2, 0, 1] ([2, 0, 1].getD 0 0 * 8) =
        build_cycle_from_order 8 3 [2, 0, 1] ([2, 0, 1].getD 1 0 * 8) → 0 = 1) ∧
      (build_cycle_from_order 8 3 [2, 0, 1])^[3] ([2, 0, 1].getD 0 0 * 8) =
        [2, 0, 1].getD 0 0 * 8 ∧
      (∃ m, m < 3 ∧ (build_cycle_from_order 8 3 [2, 0, 1])^[m]
        ([2, 0, 1].getD 0 0 * 8) = [2, 0, 1].getD 2 0 * 8)) :=
  ⟨by norm_num, by norm_num, by decide,
    build_cycle_graph_props 8 3 0 1 0 2 [2, 0, 1] (by norm_num) (by norm_num)
      (by decide) (by norm_num) (by norm_num) (by norm_num) (by norm_num)⟩

/-! ## Measurer (`measure_ns_per_access`, lines 398-436)

Timing is abstracted by oracles: `dt s` is the elapsed nanoseconds
(`t1 - t0`) that `now_ns` reported around a `chase` call of `s` steps. -/

/-- Initial step count: `steps = nodes * 16ull; if (steps < 1000) steps = 1000;`
(the `uint64_t` product wraps modulo `2^64`). -/
def initSteps (nodes : ℕ) : ℕ :=
  if (nodes * 16) % 2 ^ 64 < 1000 then 1000 else (nodes * 16) % 2 ^ 64

/-- The adaptive calibration loop: time a chase of `steps` steps; stop when
`dt >= target_ns / 2 || steps > (1ull << 62)`, otherwise double `steps` and
retry.  Fuel 64 is enough for any run that starts at `steps ≥ 1000`:
the count doubles every iteration and the loop stops beyond `2^62`. -/
def calibrateSteps (dt : ℕ → ℕ) (target_ns : ℕ) : ℕ → ℕ → ℕ
  | 0, steps => steps
  | f + 1, steps =>
    if target_ns / 2 ≤ dt steps ∨ 2 ^ 62 < steps then steps
    else calibrateSteps dt target_ns f (2 * steps)

theorem calibrateSteps_le (dt : ℕ → ℕ) (t : ℕ) : ∀ (f s : ℕ),
    calibrateSteps dt t f s ≤ max s (2 ^ 63) := by
  intro f
  induction f with
  | zero =>
    intro s
    exact le_max_left s _
  | succ f ih =>
    intro s
    rw [calibrateSteps]
    split
    · exact le_max_left s _
    · rename_i hcond
      push_neg at hcond
      have hs62 : s ≤ 2 ^ 62 := hcond.2
      have h1 := ih (2 * s)
      have h2 : 2 * s ≤ 2 ^ 63 := by
        have : (2 : ℕ) ^ 63 = 2 * 2 ^ 62 := by norm_num
        omega
      have h3 : max (2 * s) (2 ^ 63) = 2 ^ 63 := max_eq_right h2
      rw [h3] at h1
      exact le_trans h1 (le_max_right s _)

/-- C3 (amended): the step count starts at `max(1000, 16·num_nodes)` (for
any realizable node count), and doubling stops once the elapsed time
reaches `target_ms·10^6 / 2` or the step count exceeds `2^62`, so the step
count used for a timed run never exceeds `2^63` (not `2^62`: one doubling
past the cap check is possible). -/
theorem calibrate_steps_props (nodes f s target : ℕ) (dt : ℕ → ℕ)
    (hnodes : nodes < 2 ^ 60) (hs : s ≤ 2 ^ 63) :
    initSteps nodes = max 1000 (16 * nodes) ∧
    calibrateSteps dt target f s ≤ 2 ^ 63 := by
  constructor
  · unfold initSteps
    have hlt : nodes * 16 < 2 ^ 64 := by
      have : (2 : ℕ) ^ 64 = 2 ^ 60 * 16 := by norm_num
      omega
    rw [Nat.mod_eq_of_lt hlt]
    rcases Nat.lt_or_ge (nodes * 16) 1000 with h | h
    · rw [if_pos h]
      omega
    · rw [if_neg (by omega)]
      omega
  · have := calibrateSteps_le dt target f s
    have h2 : max s (2 ^ 63) = 2 ^ 63 := max_eq_right hs
    omega

/-- C3 witness: the amended theorem at `nodes = 4096`, fuel 64, start 1000. -/
theorem calibrate_steps_props_witness :
    (4096 < 2 ^ 60) ∧ (1000 ≤ 2 ^ 63) ∧
    (initSteps 4096 = max 1000 (16 * 4096) ∧
      calibrateSteps (fun _ => 10 ^ 9) 80000000 64 1000 ≤ 2 ^ 63) :=
  ⟨by norm_num, by norm_num,
    calibrate_steps_props 4096 64 1000 80000000 (fun _ => 10 ^ 9)
      (by norm_num) (by norm_num)⟩

/-- C3 counterexample: with the default 80 ms target and an elapsed-time
oracle that always reports 0 ns, calibration starting from the default
initial count 1000 returns `1000·2^53 = 9007199254740992000 > 2^62`; that
step count is passed to the timed `chase` run, refuting the claimed `2^62`
bound. -/
theorem calibrate_steps_exceeds_cap :
    calibrateSteps (fun _ => 0) 80000000 64 1000 = 9007199254740992000 ∧
    2 ^ 62 < calibrateSteps (fun _ => 0) 80000000 64 1000 := by
  constructor
  · decide
  · decide

/-- The repeats loop of `measure_ns_per_access`, counting the remaining
repeats down: each repeat re-runs the adaptive calibration on the current
step count (`steps` persists across repeats), performs the timed run, and
keeps the smallest ns-per-access.  `dtA r` / `dtR r` are the elapsed-time
oracles of the calibration phase and the timed run of that repeat. -/
def measureGo (dtA dtR : ℕ → ℕ → ℕ) (target : ℕ) : ℕ → ℕ → ℚ → ℚ
  | 0, _, best => best
  | r + 1, steps, best =>
    let s2 := calibrateSteps (dtA r) target 64 steps
    let nsper : ℚ := (dtR r s2 : ℚ) / (s2 : ℚ)
    measureGo dtA dtR target r s2 (if nsper < best then nsper else best)

/-- `measure_ns_per_access`: `best_ns_per` starts at the sentinel `1e300`
(the exact value `10^300` in this model) and the loop body runs
`opt->repeats` times. -/
def measure_ns_per_access (dtA dtR : ℕ → ℕ → ℕ) (target nodes repeats : ℕ) : ℚ :=
  measureGo dtA dtR target repeats (initSteps nodes) (10 ^ 300)

/-- The Driver's recording of one sample
(`samples[i].working_set_bytes = ws; samples[i].ns_per_access = ns;`). -/
def driverSample (dtA dtR : ℕ → ℕ → ℕ) (target nodes repeats ws : ℕ) : ℕ × ℚ :=
  (ws, measure_ns_per_access dtA dtR target nodes repeats)

/-- C9: when the configured repeats count is 0 (reachable through
`--repeats 0`, parsed by `strtoul` with no lower bound), the repeats loop
never executes: no timed measurement happens and the sentinel initial value
`1e300` is returned, which the Driver records as that size's latency. -/
theorem measure_repeats_zero (dtA dtR : ℕ → ℕ → ℕ) (target nodes ws : ℕ) :
    measure_ns_per_access dtA dtR target nodes 0 = 10 ^ 300 ∧
    driverSample dtA dtR target nodes 0 ws = (ws, 10 ^ 300) :=
  ⟨rfl, rfl⟩

/-! ## BoundaryDetector (`detect_boundaries`, lines 444-483)

A sample is `(working_set_bytes, ns_per_access)`; `double` arithmetic is
modelled over `ℚ` (all comparisons in the concrete scenarios are far from
the thresholds).  The loop `for (i = 1; i < n; ++i)` walks the remaining
samples; `prev` is `samples[i-1]`, `since` is `i - last_boundary_idx`,
`psum`/`pcount` the running plateau accumulator, `out` the entries written
into the caller's array (writes stop at `out_cap`), `found` the count the
function returns (incremented even when the write is skipped). -/

/-- The `sustained` test: a jump of more than 25 percent over the plateau
average, at least two samples since the last boundary, and (when a next
sample exists) a lookahead confirmation with 0.95 slack; at the last sample
the jump counts as sustained. -/
def sustainedFlag (avg curns : ℚ) (since : ℕ) (rest : List (ℕ × ℚ)) : Bool :=
  if (5 / 4 : ℚ) < curns / avg ∧ 2 ≤ since then
    match rest with
    | next :: _ => decide ((5 / 4 : ℚ) * (19 / 20) < next.2 / avg)
    | [] => true
  else false

def detectGo (cap : ℕ) : List (ℕ × ℚ) → (ℕ × ℚ) → ℕ → ℚ → ℕ → List (ℕ × ℚ) → ℕ →
    List (ℕ × ℚ) × ℕ
  | [], _, _, _, _, out, found => (out, found)
  | cur :: rest, prev, since, psum, pcount, out, found =>
    let avg : ℚ := psum / (pcount : ℚ)
    if sustainedFlag avg cur.2 since rest then
      detectGo cap rest cur 1 cur.2 1
        (if found < cap then out ++ [(prev.1, cur.2 / avg)] else out) (found + 1)
    else
      detectGo cap rest cur (since + 1) (psum + cur.2) (pcount + 1) out found

/-- `detect_boundaries`: returns the written boundary entries together with
the returned count `found`. -/
def detect_boundaries (samples : List (ℕ × ℚ)) (out_cap : ℕ) :
    List (ℕ × ℚ) × ℕ :=
  match samples with
  | [] => ([], 0)
  | s0 :: rest => detectGo out_cap rest s0 1 s0.2 1 [] 0

theorem detectGo_written (cap : ℕ) :
    ∀ (rest : List (ℕ × ℚ)) (prev : ℕ × ℚ) (since : ℕ) (psum : ℚ)
      (pcount : ℕ) (out : List (ℕ × ℚ)) (found : ℕ),
    out.length = min found cap →
    (detectGo cap rest prev since psum pcount out found).1.length =
      min (detectGo cap rest prev since psum pcount out found).2 cap := by
  intro rest
  induction rest with
  | nil =>
    intro prev since psum pcount out found hinv
    exact hinv
  | cons cur rest ih =>
    intro prev since psum pcount out found hinv
    simp only [detectGo]
    have hout : (if found < cap then
        out ++ [(prev.1, cur.2 / (psum / (pcount : ℚ)))] else out).length =
        min (found + 1) cap := by
      by_cases hf : found < cap
      · rw [if_pos hf, List.length_append, hinv]
        simp only [List.length_singleton]
        omega
      · rw [if_neg hf, hinv]
        omega
    cases hs : sustainedFlag (psum / (pcount : ℚ)) cur.2 since rest
    · simp only [hs, Bool.false_eq_true, if_false]
      exact ih _ _ _ _ _ _ hinv
    · simp only [hs, if_true]
      exact ih _ _ _ _ _ _ hout

/-- The 19-sample curve whose per-access latency doubles every two samples:
a boundary is detected at every second index from `i = 2` on, nine in
total. -/
def c1samples : List (ℕ × ℚ) :=
  [(1, 1), (2, 1), (3, 2), (4, 2), (5, 4), (6, 4), (7, 8), (8, 8), (9, 16),
   (10, 16), (11, 32), (12, 32), (13, 64), (14, 64), (15, 128), (16, 128),
   (17, 256), (18, 256), (19, 512)]

theorem detectGo_step_true (cap : ℕ) (cur : ℕ × ℚ) (rest : List (ℕ × ℚ))
    (prev : ℕ × ℚ) (since : ℕ) (psum : ℚ) (pcount : ℕ) (out : List (ℕ × ℚ))
    (found : ℕ) (h : sustainedFlag (psum / (pcount : ℚ)) cur.2 since rest = true) :
    detectGo cap (cur :: rest) prev since psum pcount out found =
      detectGo cap rest cur 1 cur.2 1
        (if found < cap then out ++ [(prev.1, cur.2 / (psum / (pcount : ℚ)))] else out)
        (found + 1) := by
  simp only [detectGo, h, if_true]

theorem detectGo_step_false (cap : ℕ) (cur : ℕ × ℚ) (rest : List (ℕ × ℚ))
    (prev : ℕ × ℚ) (since : ℕ) (psum : ℚ) (pcount : ℕ) (out : List (ℕ × ℚ))
    (found : ℕ) (h : sustainedFlag (psum / (pcount : ℚ)) cur.2 since rest = false) :
    detectGo cap (cur :: rest) prev since psum pcount out found =
      detectGo cap rest cur (since + 1) (psum + cur.2) (pcount + 1) out found := by
  simp only [detectGo, h, Bool.false_eq_true, if_false]

set_option maxHeartbeats 1600000 in
/-- C1: the claim says the count returned by `detect_boundaries` never
exceeds the caller's capacity (8 in the Driver) and that the summary loop
reads only entries that were written.  On the doubling curve the function
returns `found = 9` while only 8 entries were written into `bounds[8]`, so
`main`'s loop `for (i = 0; i < nb; ++i)` reads `bounds[8]` out of bounds:
the code violates the claim (and the spec's cap of 8). -/
theorem detect_boundaries_count_overflow :
    (detect_boundaries c1samples 8).2 = 9 ∧
    (detect_boundaries c1samples 8).1.length = 8 ∧
    8 < (detect_boundaries c1samples 8).2 := by
  have h : detect_boundaries c1samples 8 =
      ([(2, 2), (4, 2), (6, 2), (8, 2), (10, 2), (12, 2), (14, 2), (16, 2)], 9) := by
    show detectGo 8 [(2, 1), (3, 2), (4, 2), (5, 4), (6, 4), (7, 8), (8, 8),
      (9, 16), (10, 16), (11, 32), (12, 32), (13, 64), (14, 64), (15, 128),
      (16, 128), (17, 256), (18, 256), (19, 512)] (1, 1) 1 1 1 [] 0 =
      ([(2, 2), (4, 2), (6, 2), (8, 2), (10, 2), (12, 2), (14, 2), (16, 2)], 9)
    iterate 9
      refine (detectGo_step_false 8 _ _ _ _ _ _ _ _ (by norm_num [sustainedFlag])).trans ?_
      norm_num
      refine (detectGo_step_true 8 _ _ _ _ _ _ _ _ (by norm_num [sustainedFlag])).trans ?_
      norm_num
    norm_num [detectGo]
  rw [h]
  refine ⟨rfl, rfl, by norm_num⟩

/-- The spec's synthetic nine-sample curve (section 8, scenario 1):
2.5 = 5/2, 2.6 = 13/5, 2.7 = 27/10, 8.0 = 8, 8.2 = 41/5. -/
def c6samples : List (ℕ × ℚ) :=
  [(4096, 1), (8192, 1), (16384, 1), (32768, 1), (65536, 5 / 2),
   (131072, 13 / 5), (262144, 27 / 10), (1048576, 8), (4194304, 41 / 5)]

/-- C6: on the synthetic curve `detect_boundaries` returns exactly two
boundaries, the first at 32 KiB with ratio exactly 2.5 and the second at
256 KiB with ratio `8.0 / 2.6 = 40/13 ≈ 3.08` (within 0.1 of 3.0); in both
cases the reported size is the last pre-step size. -/
theorem detect_boundaries_synthetic :
    detect_boundaries c6samples 8 = ([(32768, 5 / 2), (262144, 40 / 13)], 2) ∧
    |(40 : ℚ) / 13 - 3| < 1 / 10 := by
  constructor
  · norm_num [detect_boundaries, detectGo, sustainedFlag, c6samples]
  · rw [abs_of_pos (by norm_num)]
    norm_num

/-! ## SizeGenerator (`generate_sizes`, lines 342-395)

The function emits candidate sizes into `out` (capped at `out_cap`,
`if (count < out_cap) out[count++] = v;`), walking powers of two from the
largest power of two `≤ min_bytes` (bumped to at least 1024), and finally
sorts ascending (`qsort` with `cmp_size_t`). -/

/-- One capped emission `if (count < out_cap) out[count++] = v;`. -/
def emit (cap v : ℕ) (acc : List ℕ) : List ℕ :=
  if acc.length < cap then acc ++ [v] else acc

/-- The candidate values emitted for one power of two `p`, with their
range guards, in the order the C code checks them: `p` itself (when
`p >= min_bytes`; `p <= max_bytes` holds from the loop condition), `1.5p`,
then for `p <= 1 MiB` the quarters, then for `p <= 128 KiB` the eighths. -/
def blockValues (minb maxb p : ℕ) : List ℕ :=
  (if minb ≤ p then [p] else []) ++
  (if minb ≤ p + p / 2 ∧ p + p / 2 ≤ maxb then [p + p / 2] else []) ++
  (if p ≤ 2 ^ 20 then
    (if minb ≤ p + p / 4 ∧ p + p / 4 ≤ maxb then [p + p / 4] else []) ++
    (if minb ≤ p + p * 3 / 4 ∧ p + p * 3 / 4 ≤ maxb then [p + p * 3 / 4] else [])
  else []) ++
  (if p ≤ 128 * 2 ^ 10 then
    (if minb ≤ p + p / 8 ∧ p + p / 8 ≤ maxb then [p + p / 8] else []) ++
    (if minb ≤ p + p * 3 / 8 ∧ p + p * 3 / 8 ≤ maxb then [p + p * 3 / 8] else []) ++
    (if minb ≤ p + p * 5 / 8 ∧ p + p * 5 / 8 ≤ maxb then [p + p * 5 / 8] else []) ++
    (if minb ≤ p + p * 7 / 8 ∧ p + p * 7 / 8 ≤ maxb then [p + p * 7 / 8] else [])
  else [])

theorem blockValues_range (minb maxb p : ℕ) (hp : 1 ≤ p) :
    ∀ v ∈ blockValues minb maxb p,
      minb ≤ v ∧ (v ≤ maxb ∨ v = p) ∧ p ≤ v ∧ v < 2 * p := by
  intro v hv
  unfold blockValues at hv
  simp only [List.mem_append] at hv
  rcases hv with ((h | h) | h) | h
  · split at h
    · simp at h
      subst h
      refine ⟨by assumption, Or.inr rfl, le_rfl, by omega⟩
    · simp at h
  · split at h
    · simp at h
      subst h
      rename_i hg
      exact ⟨hg.1, Or.inl hg.2, by omega, by omega⟩
    · simp at h
  · split at h
    · simp only [List.mem_append] at h
      rcases h with h | h <;>
        · split at h
          · simp at h
            subst h
            rename_i hg
            exact ⟨hg.1, Or.inl hg.2, by omega, by omega⟩
          · simp at h
    · simp at h
  · split at h
    · simp only [List.mem_append] at h
      rcases h with ((h | h) | h) | h <;>
        · split at h
          · simp at h
            subst h
            rename_i hg
            exact ⟨hg.1, Or.inl hg.2, by omega, by omega⟩
          · simp at h
    · simp at h

theorem ite_singleton_sublist (c : Prop) [Decidable c] (v : ℕ) :
    List.Sublist (if c then [v] else []) [v] := by
  split
  · exact List.Sublist.refl [v]
  · exact List.nil_sublist [v]

theorem blockValues_sublist (minb maxb p : ℕ) :
    List.Sublist (blockValues minb maxb p)
      ([p] ++ [p + p / 2] ++ ([p + p / 4] ++ [p + p * 3 / 4]) ++
        ([p + p / 8] ++ [p + p * 3 / 8] ++ [p + p * 5 / 8] ++ [p + p * 7 / 8])) := by
  unfold blockValues
  refine List.Sublist.append (List.Sublist.append (List.Sublist.append
    (ite_singleton_sublist _ _) (ite_singleton_sublist _ _)) ?_) ?_
  · split
    · exact List.Sublist.append (ite_singleton_sublist _ _) (ite_singleton_sublist _ _)
    · exact List.nil_sublist _
  · split
    · exact List.Sublist.append (List.Sublist.append (List.Sublist.append
        (ite_singleton_sublist _ _) (ite_singleton_sublist _ _))
        (ite_singleton_sublist _ _)) (ite_singleton_sublist _ _)
    · exact List.nil_sublist _

theorem blockValues_nodup (minb maxb p u : ℕ) (hu : p = 8 * u) (hup : 1 ≤ u) :
    (blockValues minb maxb p).Nodup := by
  apply List.Nodup.sublist (blockValues_sublist minb maxb p)
  subst hu
  simp only [List.cons_append, List.nil_append, List.nodup_cons, List.mem_cons,
    List.mem_singleton, List.not_mem_nil, List.nodup_nil, or_false,
    not_or, not_false_eq_true, and_true]
  omega

theorem blockValues_head_mem (minb maxb p : ℕ) (hmin : minb ≤ p) :
    p ∈ blockValues minb maxb p := by
  unfold blockValues
  rw [List.mem_append, List.mem_append, List.mem_append]
  left
  left
  left
  rw [if_pos hmin]
  exact List.mem_singleton.mpr rfl

/-! ### Properties of the capped emission fold -/

theorem emit_foldl_length_le (cap : ℕ) (B : List ℕ) :
    ∀ acc : List ℕ, acc.length ≤ cap →
      (B.foldl (fun a v => emit cap v a) acc).length ≤ cap := by
  induction B with
  | nil => exact fun acc h => h
  | cons v B ih =>
    intro acc h
    rw [List.foldl_cons]
    apply ih
    unfold emit
    split
    · rw [List.length_append]
      simp only [List.length_singleton]
      omega
    · exact h

theorem emit_foldl_length_mono (cap : ℕ) (B : List ℕ) :
    ∀ acc : List ℕ, acc.length ≤ (B.foldl (fun a v => emit cap v a) acc).length := by
  induction B with
  | nil => exact fun acc => le_rfl
  | cons v B ih =>
    intro acc
    rw [List.foldl_cons]
    refine le_trans ?_ (ih (emit cap v acc))
    unfold emit
    split
    · rw [List.length_append]
      omega
    · exact le_rfl

theorem emit_foldl_subset (cap : ℕ) (B : List ℕ) :
    ∀ (acc : List ℕ) (x : ℕ), x ∈ acc →
      x ∈ B.foldl (fun a v => emit cap v a) acc := by
  induction B with
  | nil => exact fun acc x h => h
  | cons v B ih =>
    intro acc x h
    rw [List.foldl_cons]
    apply ih
    unfold emit
    split
    · rw [List.mem_append]
      exact Or.inl h
    · exact h

theorem emit_foldl_mem_sub (cap : ℕ) (B : List ℕ) :
    ∀ (acc : List ℕ) (x : ℕ), x ∈ B.foldl (fun a v => emit cap v a) acc →
      x ∈ acc ∨ x ∈ B := by
  induction B with
  | nil => exact fun acc x h => Or.inl h
  | cons v B ih =>
    intro acc x h
    rw [List.foldl_cons] at h
    rcases ih _ x h with h2 | h2
    · unfold emit at h2
      split at h2
      · rw [List.mem_append] at h2
        rcases h2 with h2 | h2
        · exact Or.inl h2
        · simp at h2
          subst h2
          exact Or.inr (List.mem_cons_self _ _)
      · exact Or.inl h2
    · exact Or.inr (List.mem_cons_of_mem _ h2)

theorem emit_foldl_nodup (cap : ℕ) (B : List ℕ) :
    ∀ acc : List ℕ, B.Nodup → (∀ v ∈ B, v ∉ acc) → acc.Nodup →
      (B.foldl (fun a v => emit cap v a) acc).Nodup := by
  induction B with
  | nil => exact fun acc _ _ h => h
  | cons v B ih =>
    intro acc hB hdisj hacc
    rw [List.foldl_cons]
    rw [List.nodup_cons] at hB
    apply ih _ hB.2
    · intro v2 hv2
      unfold emit
      split
      · rw [List.mem_append]
        rintro (h | h)
        · exact hdisj v2 (List.mem_cons_of_mem _ hv2) h
        · simp at h
          subst h
          exact hB.1 hv2
      · exact hdisj v2 (List.mem_cons_of_mem _ hv2)
    · unfold emit
      split
      · rw [List.nodup_append]
        refine ⟨hacc, List.nodup_singleton v, ?_⟩
        intro x hx hx2
        simp at hx2
        subst hx2
        exact hdisj x (List.mem_cons_self _ _) hx
      · exact hacc

theorem emit_foldl_mem_of_lt (cap : ℕ) (B : List ℕ) :
    ∀ acc : List ℕ, (B.foldl (fun a v => emit cap v a) acc).length < cap →
      ∀ v ∈ B, v ∈ B.foldl (fun a v => emit cap v a) acc := by
  induction B with
  | nil =>
    intro acc _ v hv
    simp at hv
  | cons w B ih =>
    intro acc hlen v hv
    rw [List.foldl_cons] at hlen ⊢
    rcases List.mem_cons.mp hv with rfl | hv2
    · apply emit_foldl_subset
      unfold emit
      by_cases hc : acc.length < cap
      · rw [if_pos hc, List.mem_append]
        right
        exact List.mem_singleton.mpr rfl
      · exfalso
        have h1 := emit_foldl_length_mono cap B (emit cap v acc)
        have hlen2 : (emit cap v acc).length = acc.length := by
          unfold emit
          rw [if_neg hc]
        omega
    · exact ih _ hlen v hv2

/-- The initial power of two: the loop `p = 1; while (... (p << 1) <= min_bytes)
p <<= 1;` (same shape as the gray builder's loop) followed by
`if (p < 1024) p = 1024;`. -/
def pInit (minb : ℕ) : ℕ :=
  if pow2grow minb 64 1 < 1024 then 1024 else pow2grow minb 64 1

/-- The main loop `for (; p <= max_bytes; p <<= 1)` of `generate_sizes`,
with the early break `if (p > (SIZE_MAX >> 1)) break;` after the block of
emissions. -/
def genLoop (minb maxb cap : ℕ) : ℕ → ℕ → List ℕ → List ℕ
  | 0, _, acc => acc
  | f + 1, p, acc =>
    if p ≤ maxb then
      let acc2 := (blockValues minb maxb p).foldl (fun a v => emit cap v a) acc
      if 2 ^ 63 - 1 < p then acc2
      else genLoop minb maxb cap f (2 * p) acc2
    else acc

/-- `generate_sizes`: run the emission loop, then sort ascending (`qsort`). -/
def generate_sizes (minb maxb cap : ℕ) : List ℕ :=
  List.insertionSort (· ≤ ·) (genLoop minb maxb cap 64 (pInit minb) [])

theorem pow_eq_of_le_lt {t j : ℕ} (h1 : 2 ^ t ≤ 2 ^ j) (h2 : (2 : ℕ) ^ j < 2 ^ (t + 1)) :
    (2 : ℕ) ^ j = 2 ^ t := by
  have ht1 : t ≤ j := (Nat.pow_le_pow_iff_right (by norm_num)).mp h1
  have ht2 : j < t + 1 := (Nat.pow_lt_pow_iff_right (by norm_num)).mp h2
  have : j = t := by omega
  rw [this]

theorem genLoop_spec (minb maxb cap : ℕ) (hmax : maxb < 2 ^ 64) :
    ∀ (f t p : ℕ) (acc : List ℕ), p = 2 ^ t → 1024 ≤ p → 64 ≤ f + t →
    acc.Nodup → (∀ x ∈ acc, x < p) → (∀ x ∈ acc, minb ≤ x ∧ x ≤ maxb) →
    acc.length ≤ cap →
    (genLoop minb maxb cap f p acc).Nodup ∧
    (∀ x ∈ genLoop minb maxb cap f p acc, minb ≤ x ∧ x ≤ maxb) ∧
    (genLoop minb maxb cap f p acc).length ≤ cap ∧
    (∀ x ∈ acc, x ∈ genLoop minb maxb cap f p acc) ∧
    acc.length ≤ (genLoop minb maxb cap f p acc).length ∧
    ((genLoop minb maxb cap f p acc).length < cap →
      ∀ j, minb ≤ 2 ^ j → 2 ^ j ≤ maxb → p ≤ 2 ^ j →
        2 ^ j ∈ genLoop minb maxb cap f p acc) := by
  intro f
  induction f with
  | zero =>
    intro t p acc hpt hp1024 hfuel hnd hlt hrange hlen
    have hbig : 2 ^ 64 ≤ p := by
      rw [hpt]
      exact Nat.pow_le_pow_right (by norm_num) (by omega)
    refine ⟨hnd, hrange, hlen, fun x hx => hx, le_rfl, ?_⟩
    intro _ j _ hj2 hj3
    omega
  | succ f ih =>
    intro t p acc hpt hp1024 hfuel hnd hlt hrange hlen
    have hp1 : 1 ≤ p := by omega
    by_cases hpm : p ≤ maxb
    · -- the block of emissions for this p
      have ht10 : 10 ≤ t := by
        have : (2 : ℕ) ^ 10 ≤ 2 ^ t := by
          rw [← hpt]
          exact hp1024
        exact (Nat.pow_le_pow_iff_right (by norm_num)).mp this
      have hu : p = 8 * 2 ^ (t - 3) := by
        rw [hpt]
        have : t = 3 + (t - 3) := by omega
        rw [this, pow_add]
        norm_num
      have hu1 : 1 ≤ 2 ^ (t - 3) := Nat.one_le_two_pow
      have hbnd := blockValues_nodup minb maxb p _ hu hu1
      have hbrange := blockValues_range minb maxb p hp1
      have hbdisj : ∀ v ∈ blockValues minb maxb p, v ∉ acc := by
        intro v hv hva
        have h1 := (hbrange v hv).2.2.1
        have h2 := hlt v hva
        omega
      have hnd2 := emit_foldl_nodup cap _ acc hbnd hbdisj hnd
      have hmem2 := emit_foldl_mem_sub cap (blockValues minb maxb p) acc
      have hrange2 : ∀ x ∈ (blockValues minb maxb p).foldl (fun a v => emit cap v a) acc,
          minb ≤ x ∧ x ≤ maxb := by
        intro x hx
        rcases hmem2 x hx with h | h
        · exact hrange x h
        · obtain ⟨h1, h2, _, _⟩ := hbrange x h
          rcases h2 with h2 | h2
          · exact ⟨h1, h2⟩
          · exact ⟨h1, by omega⟩
      have hlt2 : ∀ x ∈ (blockValues minb maxb p).foldl (fun a v => emit cap v a) acc,
          x < 2 * p := by
        intro x hx
        rcases hmem2 x hx with h | h
        · have := hlt x h
          omega
        · exact (hbrange x h).2.2.2
      have hlen2 := emit_foldl_length_le cap (blockValues minb maxb p) acc hlen
      have hsub2 := emit_foldl_subset cap (blockValues minb maxb p) acc
      have hmono2 := emit_foldl_length_mono cap (blockValues minb maxb p) acc
      have hunf : genLoop minb maxb cap (f + 1) p acc =
          (if 2 ^ 63 - 1 < p then
            (blockValues minb maxb p).foldl (fun a v => emit cap v a) acc
          else genLoop minb maxb cap f (2 * p)
            ((blockValues minb maxb p).foldl (fun a v => emit cap v a) acc)) := by
        rw [genLoop, if_pos hpm]
      rw [hunf]
      by_cases hbig : 2 ^ 63 - 1 < p
      · rw [if_pos hbig]
        refine ⟨hnd2, hrange2, hlen2, hsub2, hmono2, ?_⟩
        intro hcl j hj1 hj2 hj3
        have hjp : (2 : ℕ) ^ j = p := by
          rw [hpt] at hj3 ⊢
          apply pow_eq_of_le_lt hj3
          have h2p : (2 : ℕ) ^ (t + 1) = 2 * 2 ^ t := by ring
          rw [h2p, ← hpt]
          omega
        rw [hjp]
        exact emit_foldl_mem_of_lt cap _ acc hcl p
          (blockValues_head_mem minb maxb p (by omega))
      · rw [if_neg hbig]
        have hp2t : 2 * p = 2 ^ (t + 1) := by
          rw [hpt]
          ring
        obtain ⟨ihnd, ihrange, ihlen, ihsub, ihmono, ihpow⟩ :=
          ih (t + 1) (2 * p) _ hp2t (by omega) (by omega) hnd2 hlt2 hrange2 hlen2
        refine ⟨ihnd, ihrange, ihlen, ?_, ?_, ?_⟩
        · intro x hx
          exact ihsub x (hsub2 x hx)
        · exact le_trans hmono2 ihmono
        · intro hcl j hj1 hj2 hj3
          rcases Nat.lt_or_ge (2 ^ j) (2 * p) with hsmall | hge
          · have hjp : (2 : ℕ) ^ j = p := by
              rw [hpt] at hj3 ⊢
              apply pow_eq_of_le_lt hj3
              rw [← hp2t]
              exact hsmall
            rw [hjp]
            apply ihsub
            apply emit_foldl_mem_of_lt cap _ acc (by omega)
            exact blockValues_head_mem minb maxb p (by omega)
          · exact ihpow hcl j hj1 hj2 hge
    · rw [genLoop, if_neg hpm]
      refine ⟨hnd, hrange, hlen, fun x hx => hx, le_rfl, ?_⟩
      intro _ j _ hj2 hj3
      omega

theorem pInit_props (minb : ℕ) (hmin : minb < 2 ^ 64) :
    (∃ t, pInit minb = 2 ^ t) ∧ 1024 ≤ pInit minb ∧
    (∀ j, 1024 ≤ 2 ^ j → minb ≤ 2 ^ j → pInit minb ≤ 2 ^ j) := by
  by_cases h0 : minb = 0
  · subst h0
    have he : pInit 0 = 1024 := by decide
    rw [he]
    exact ⟨⟨10, by norm_num⟩, le_rfl, fun j hj _ => hj⟩
  · obtain ⟨b, hb1, hb2, _⟩ := pow2grow_spec minb hmin 64 0 1 (by norm_num)
      (by omega) (by omega)
    unfold pInit
    by_cases hlt : pow2grow minb 64 1 < 1024
    · rw [if_pos hlt]
      exact ⟨⟨10, by norm_num⟩, le_rfl, fun j hj _ => hj⟩
    · rw [if_neg hlt]
      refine ⟨⟨b, hb1⟩, by omega, ?_⟩
      intro j _ hj2
      omega

set_option maxRecDepth 10000 in
/-- C7 counterexample: with `min_bytes = 512`, `max_bytes = 1024` the
generator returns `[1024]`: the power of two `512 ∈ [512, 1024]` is missing
(the start power is bumped to 1024), and the cap is not reached. -/
theorem generate_sizes_missing_power :
    generate_sizes 512 1024 1024 = [1024] ∧
    (512 : ℕ) = 2 ^ 9 ∧ (512 : ℕ) ≤ 1024 ∧
    (generate_sizes 512 1024 1024).length < 1024 ∧
    512 ∉ generate_sizes 512 1024 1024 := by
  refine ⟨by decide, by norm_num, by norm_num, by decide, by decide⟩

/-- C7 (amended): for `min_bytes ≤ max_bytes` (as `size_t` values), the
size list is strictly ascending, every value lies in
`[min_bytes, max_bytes]`, the length never exceeds the cap of 1024, and —
when the cap is not reached — every power of two in the range that is at
least 1024 is present (powers of two below 1024 are skipped because the
start power is bumped to 1024). -/
theorem generate_sizes_props (minb maxb v j : ℕ) (hmm : minb ≤ maxb)
    (hmax : maxb < 2 ^ 64) (hv : v ∈ generate_sizes minb maxb 1024) :
    List.Sorted (· < ·) (generate_sizes minb maxb 1024) ∧
    (minb ≤ v ∧ v ≤ maxb) ∧
    (generate_sizes minb maxb 1024).length ≤ 1024 ∧
    ((generate_sizes minb maxb 1024).length < 1024 → minb ≤ 2 ^ j →
      2 ^ j ≤ maxb → 1024 ≤ 2 ^ j → 2 ^ j ∈ generate_sizes minb maxb 1024) := by
  obtain ⟨⟨t, ht⟩, hp1024, hple⟩ := pInit_props minb (by omega)
  obtain ⟨hnd, hrange, hlen, _, _, hpow⟩ :=
    genLoop_spec minb maxb 1024 hmax 64 t (pInit minb) [] ht hp1024 (by omega)
      List.nodup_nil (by simp) (by simp) (by simp)
  have hperm := List.perm_insertionSort (· ≤ ·)
    (genLoop minb maxb 1024 64 (pInit minb) [])
  have hlen_eq : (generate_sizes minb maxb 1024).length =
      (genLoop minb maxb 1024 64 (pInit minb) []).length := hperm.length_eq
  have hmem_iff : ∀ x, x ∈ generate_sizes minb maxb 1024 ↔
      x ∈ genLoop minb maxb 1024 64 (pInit minb) [] := fun x => hperm.mem_iff
  refine ⟨?_, ?_, ?_, ?_⟩
  · have hsle : List.Sorted (· ≤ ·) (generate_sizes minb maxb 1024) :=
      List.sorted_insertionSort (· ≤ ·) _
    have hsnd : (generate_sizes minb maxb 1024).Nodup := hperm.nodup_iff.mpr hnd
    exact List.Pairwise.imp₂ (fun a b hab hne => lt_of_le_of_ne hab hne) hsle hsnd
  · exact hrange v ((hmem_iff v).mp hv)
  · rw [hlen_eq]
    exact hlen
  · intro hcl hj1 hj2 hj3
    rw [hmem_iff]
    rw [hlen_eq] at hcl
    exact hpow hcl j hj1 hj2 (hple j hj3 hj1)

set_option maxRecDepth 10000 in
/-- C7 witness: the amended theorem at `min_bytes = 4096`,
`max_bytes = 65536`, checking the member 4096 and the power `2^12`. -/
theorem generate_sizes_props_witness :
    (4096 ≤ 65536) ∧ ((65536 : ℕ) < 2 ^ 64) ∧
    (4096 ∈ generate_sizes 4096 65536 1024) ∧
    (List.Sorted (· < ·) (generate_sizes 4096 65536 1024) ∧
      (4096 ≤ 4096 ∧ 4096 ≤ 65536) ∧
      (generate_sizes 4096 65536 1024).length ≤ 1024 ∧
      ((generate_sizes 4096 65536 1024).length < 1024 → 4096 ≤ 2 ^ 12 →
        2 ^ 12 ≤ 65536 → 1024 ≤ 2 ^ 12 →
          2 ^ 12 ∈ generate_sizes 4096 65536 1024)) :=
  ⟨by norm_num, by norm_num, by decide,
    generate_sizes_props 4096 65536 4096 12 (by norm_num) (by norm_num) (by decide)⟩

end CacheDetect
